import Mathlib

/-!
Verification of the udoc binary serialization codec (Rust repository).

We shallowly embed the source files `src/reader.rs`, `src/common.rs`,
`src/utils.rs`, `src/wire_type.rs`, `src/decoder.rs`, `src/encoder.rs` and
`src/lib.rs` into Lean.  Machine integers (`u8`, `u64`, `usize` on a 64-bit
target) are modelled as `Nat` with explicit `% 2 ^ 64` where wrap-around can
occur; bytes produced by the code are always `< 256` by construction.
Fallible Rust code returning `Option`/`Result` is modelled with
`Option`/`DResult`; a Rust panic (`unreachable!`, `unimplemented!`,
`assert!`, `unwrap` failure, out-of-bounds slice index) is modelled as a
distinct outcome (`Option.none` for `encode_size`, `DResult.panic`
elsewhere), never conflated with returned errors.
-/

namespace Udoc

/-- Little-endian byte decomposition of a `u64` value, as in
`u64::to_le_bytes` (the `([u8; 8], usize)` result of `encode_size`). -/
def toLE8 (n : Nat) : List Nat :=
  [n % 256, n / 2 ^ 8 % 256, n / 2 ^ 16 % 256, n / 2 ^ 24 % 256,
   n / 2 ^ 32 % 256, n / 2 ^ 40 % 256, n / 2 ^ 48 % 256, n / 2 ^ 56 % 256]

/-- Little-endian recomposition, as in `uN::from_le_bytes`. -/
def fromLE : List Nat → Nat
  | [] => 0
  | b :: bs => b + 256 * fromLE bs

/-- Bit length of `n`, computed with an explicit halving budget.
`bitLenAux 64 n` equals `64 - n.leading_zeros()` for a `u64` value `n`
(`src/common.rs`, `encode_size`: `let bits = 64 - value.leading_zeros()`). -/
def bitLenAux : Nat → Nat → Nat
  | 0, _ => 0
  | fuel + 1, n => if n = 0 then 0 else bitLenAux fuel (n / 2) + 1

/-- `u64Bits n` models `64 - n.leading_zeros()` for `n : u64`. -/
def u64Bits (n : Nat) : Nat := bitLenAux 64 n

/-- `src/common.rs` (= `src/utils.rs`) `encode_size`.
Returns the 8 little-endian bytes of `(value << 2) | class` and the chosen
encoded length.  The `unreachable!()` arm (hit exactly when
`value ≥ 2 ^ 62`) is a Rust panic, modelled as `none`. -/
def encodeSize (value : Nat) : Option (List Nat × Nat) :=
  let bits := u64Bits value
  let v := (value <<< 2) % 2 ^ 64
  if bits ≤ 8 - 2 then some (toLE8 (v ||| 0b00), 1)
  else if bits ≤ 16 - 2 then some (toLE8 (v ||| 0b01), 2)
  else if bits ≤ 32 - 2 then some (toLE8 (v ||| 0b10), 4)
  else if bits ≤ 64 - 2 then some (toLE8 (v ||| 0b11), 8)
  else none

/-- `src/reader.rs` `Reader<u8>`: a cursor over a borrowed byte slice. -/
structure Reader where
  buffer : List Nat
  cursor : Nat
deriving Repr, DecidableEq

namespace Reader

/-- `Reader::new`. -/
def new (buffer : List Nat) : Reader := ⟨buffer, 0⟩

/-- `Reader::remaining`. -/
def remaining (r : Reader) : Nat := r.buffer.length - r.cursor

/-- `Reader::rest`. -/
def rest (r : Reader) : List Nat := r.buffer.drop r.cursor

/-- `Reader::has_some`. -/
def hasSome (r : Reader) : Bool := r.cursor < r.buffer.length

/-- `Reader::empty`. -/
def isEmpty (r : Reader) : Bool := !r.hasSome

/-- `Reader::peek(offset)`. -/
def peek (r : Reader) (offset : Nat) : Option Nat :=
  r.buffer[r.cursor + offset]?

/-- `Reader::next` (returns the byte and the advanced reader). -/
def next (r : Reader) : Option (Nat × Reader) :=
  (r.peek 0).map fun b => (b, ⟨r.buffer, r.cursor + 1⟩)

/-- `Reader::has_n`. -/
def hasN (r : Reader) (n : Nat) : Bool := r.cursor + n ≤ r.buffer.length

/-- `Reader::peek_n`. -/
def peekN (r : Reader) (n : Nat) : Option (List Nat) :=
  if r.hasN n then some ((r.buffer.drop r.cursor).take n) else none

/-- `Reader::next_n` (returns the subslice and the advanced reader). -/
def nextN (r : Reader) (n : Nat) : Option (List Nat × Reader) :=
  (r.peekN n).map fun s => (s, ⟨r.buffer, r.cursor + n⟩)

/-- `Reader::next_bytes::<N>` followed by `uN::from_le_bytes`
(`next_u8_le` … `next_u64_le`; the buffer is already little-endian). -/
def nextULE (r : Reader) (n : Nat) : Option (Nat × Reader) :=
  (r.nextN n).map fun p => (fromLE p.1, p.2)

/-- `Reader::next_u8_le`. -/
def nextU8LE (r : Reader) : Option (Nat × Reader) := r.nextULE 1

/-- `Reader::next_u16_le`. -/
def nextU16LE (r : Reader) : Option (Nat × Reader) := r.nextULE 2

/-- `Reader::next_u32_le`. -/
def nextU32LE (r : Reader) : Option (Nat × Reader) := r.nextULE 4

/-- `Reader::next_u64_le`. -/
def nextU64LE (r : Reader) : Option (Nat × Reader) := r.nextULE 8

end Reader

/-- The read width selected by the low two bits of a varint's first byte
(the `match first & 0b11` dispatch of `decode_size`). -/
def sizeClassLen (first : Nat) : Nat :=
  match first &&& 0b11 with
  | 0 => 1
  | 1 => 2
  | 2 => 4
  | _ => 8

/-- `src/common.rs` `decode_size`: dispatch on the low two bits of the first
byte, read 1/2/4/8 little-endian bytes (`next_u8_le` … `next_u64_le`, all
instances of `nextULE`), shift right by two. -/
def decodeSize (r : Reader) : Option (Nat × Reader) :=
  match r.peek 0 with
  | none => none
  | some first => (r.nextULE (sizeClassLen first)).map fun p => (p.1 >>> 2, p.2)

/-- `src/common.rs` `peek_decode_size`: decode on a clone of the reader,
return the value and the number of bytes the decode consumed. -/
def peekDecodeSize (r : Reader) : Option (Nat × Nat) :=
  (decodeSize r).map fun p => (p.1, p.2.cursor - r.cursor)

/-- `src/decoder.rs` `enum Error`.  Note: there is no `UnsupportedFeature`
variant in the source. -/
inductive Error where
  | InputExhausted
  | TrailingData
  | SizeTooLarge
  | InvalidWireType
  | StringInvalidUtf8
  | TagsInvalidLength
  | TagsInputExhausted
  | TagsTrailingData
  | ListInvalidLength
  | ListInputExhausted
  | ListTrailingData
deriving Repr, DecidableEq

/-- Outcome of a decoding step that threads a `&mut Reader`: a success or an
`Err` both leave the reader in a definite state (Rust mutates in place even
when returning `Err`); a panic (`unimplemented!`) aborts. -/
inductive DStep (α : Type) where
  | ok (a : α) (r : Reader)
  | error (e : Error) (r : Reader)
  | panic
deriving Repr, DecidableEq

/-- Sequencing of reader-threading steps (Rust `?` on `&mut self` calls:
errors propagate, the reader keeps its current state). -/
def dbind {α β : Type} (m : DStep α) (f : α → Reader → DStep β) : DStep β :=
  match m with
  | .ok a r => f a r
  | .error e r => .error e r
  | .panic => .panic

/-- Outcome of an operation that does not hand back a reader
(`decoder::Result<T>` by value, or an encoder `Result`), with panics kept
distinct from returned errors. -/
inductive PRes (ε α : Type) where
  | ok (a : α)
  | error (e : ε)
  | panic
deriving Repr, DecidableEq

/-- `src/decoder.rs` `u64_to_usize` via `try_into`; on the 64-bit target
`usize` holds every `u64`, so this always succeeds (`SizeTooLarge` is
unreachable there). -/
def u64ToUsize (value : Nat) : Option Nat := some value

/-- `src/decoder.rs` `decode_size`: the `common` decoder with `None` mapped
to `Error::InputExhausted` (`decode_size` never advances the reader when it
fails: the failing `next_*` call does not move the cursor). -/
def decodeSizeD (r : Reader) : DStep Nat :=
  match decodeSize r with
  | some (v, r1) => .ok v r1
  | none => .error .InputExhausted r

/-- `src/decoder.rs` `decode_size_as_usize`. -/
def decodeSizeAsUsize (r : Reader) : DStep Nat :=
  dbind (decodeSizeD r) fun v r1 =>
    match u64ToUsize v with
    | some u => .ok u r1
    | none => .error .SizeTooLarge r1

/-- `src/decoder.rs` `decode_tag_symbol`.  The reserved low-bit-zero branch
is `unimplemented!()`, a panic.  The symbol payload (`TagSymbol::Bytes`) is
the returned byte slice. -/
def decodeTagSymbol (r : Reader) : DStep (List Nat) :=
  dbind (decodeSizeD r) fun size r1 =>
    if size &&& 1 ≠ 0 then
      match u64ToUsize (size >>> 1) with
      | some n =>
        match r1.nextN n with
        | some (s, r2) => .ok s r2
        | none => .error .InputExhausted r1
      | none => .error .SizeTooLarge r1
    else
      .panic

/-- `src/decoder.rs` `decode_var_bytes`. -/
def decodeVarBytes (r : Reader) : DStep (List Nat) :=
  dbind (decodeSizeAsUsize r) fun size r1 =>
    match r1.nextN size with
    | some (s, r2) => .ok s r2
    | none => .error .InputExhausted r1

/-- `src/decoder.rs` `decode_list`: an empty buffer means zero elements,
otherwise a leading varint count. -/
def decodeList (buffer : List Nat) : PRes Error (Nat × Reader) :=
  let r := Reader.new buffer
  if r.hasSome then
    match decodeSizeAsUsize r with
    | .ok n r1 => .ok (n, r1)
    | .error e _ => .error e
    | .panic => .panic
  else
    .ok (0, r)

/-- The wire-type enumeration (constructor set shared by
`src/wire_type.rs` and `src/common.rs`; their numeric assignments differ,
see the two tables below). -/
inductive WireType where
  | Null
  | BoolFalse
  | BoolTrue
  | Nat
  | Nat8
  | Nat16
  | Nat32
  | Nat64
  | Int
  | Int8
  | Int16
  | Int32
  | Int64
  | Float32
  | Float64
  | Decimal32
  | Decimal64
  | Bytes
  | String
  | Symbol
  | List
deriving Repr, DecidableEq

/-- `WIRE_TYPE_MIN`. -/
def wireTypeMin : Nat := 1

/-- `WIRE_TYPE_MAX`. -/
def wireTypeMax : Nat := 21

/-- `WIRE_TYPE_MASK` (= 32 - 1). -/
def wireTypeMask : Nat := 32 - 1

/-- `WIRE_FLAG_KIND` (= `WIRE_FLAG_SCHEMA_TYPE` in `src/common.rs`). -/
def wireFlagKind : Nat := 0x40

/-- `WIRE_FLAG_TAGS`. -/
def wireFlagTags : Nat := 0x80

/-- Discriminant table of `src/wire_type.rs` (the enum `src/lib.rs`
re-exports; this matches the specification's section-3 table): `Nat8 = 4`,
…, `Nat = 16`, `Int = 17`.  Bytes outside `[1, 21]` have no wire type. -/
def wireTypeOfByte : Nat → Option WireType
  | 1 => some .Null
  | 2 => some .BoolFalse
  | 3 => some .BoolTrue
  | 4 => some .Nat8
  | 5 => some .Nat16
  | 6 => some .Nat32
  | 7 => some .Nat64
  | 8 => some .Int8
  | 9 => some .Int16
  | 10 => some .Int32
  | 11 => some .Int64
  | 12 => some .Float32
  | 13 => some .Float64
  | 14 => some .Decimal32
  | 15 => some .Decimal64
  | 16 => some .Nat
  | 17 => some .Int
  | 18 => some .Bytes
  | 19 => some .String
  | 20 => some .Symbol
  | 21 => some .List
  | _ => none

/-- Discriminant table of `src/common.rs` (the stale draft enum that
`src/decoder.rs` names via `use crate::common::*`; `src/lib.rs` declares no
`common` module, so that import cannot resolve as committed): `Nat = 4`,
`Nat8 = 5`, …, `Float64 = 15`. -/
def wireTypeOfByteCommon : Nat → Option WireType
  | 1 => some .Null
  | 2 => some .BoolFalse
  | 3 => some .BoolTrue
  | 4 => some .Nat
  | 5 => some .Nat8
  | 6 => some .Nat16
  | 7 => some .Nat32
  | 8 => some .Nat64
  | 9 => some .Int
  | 10 => some .Int8
  | 11 => some .Int16
  | 12 => some .Int32
  | 13 => some .Int64
  | 14 => some .Float32
  | 15 => some .Float64
  | 16 => some .Decimal32
  | 17 => some .Decimal64
  | 18 => some .Bytes
  | 19 => some .String
  | 20 => some .Symbol
  | 21 => some .List
  | _ => none

/-- Two's-complement reinterpretation of `k` little-endian bytes
(`iN::from_le_bytes`). -/
def intOfLE (k : Nat) (bs : List Nat) : Int :=
  let n := fromLE bs
  if n < 2 ^ (8 * k - 1) then (n : Int) else (n : Int) - 2 ^ (8 * k)

/-- UTF-8 validity of a byte sequence, as checked by
`std::str::from_utf8` (RFC 3629: no overlong forms, no surrogates, maximum
scalar value `0x10FFFF`). -/
def isValidUtf8 : List Nat → Bool
  | [] => true
  | b :: rest =>
    if b < 0x80 then isValidUtf8 rest
    else if b < 0xC2 then false
    else if b < 0xE0 then
      match rest with
      | c1 :: r => decide (0x80 ≤ c1 ∧ c1 < 0xC0) && isValidUtf8 r
      | [] => false
    else if b < 0xF0 then
      match rest with
      | c1 :: c2 :: r =>
        decide ((b ≠ 0xE0 ∨ 0xA0 ≤ c1) ∧ (b ≠ 0xED ∨ c1 < 0xA0) ∧
                0x80 ≤ c1 ∧ c1 < 0xC0 ∧ 0x80 ≤ c2 ∧ c2 < 0xC0) && isValidUtf8 r
      | _ => false
    else if b < 0xF5 then
      match rest with
      | c1 :: c2 :: c3 :: r =>
        decide ((b ≠ 0xF0 ∨ 0x90 ≤ c1) ∧ (b ≠ 0xF4 ∨ c1 < 0x90) ∧
                0x80 ≤ c1 ∧ c1 < 0xC0 ∧ 0x80 ≤ c2 ∧ c2 < 0xC0 ∧
                0x80 ≤ c3 ∧ c3 < 0xC0) && isValidUtf8 r
      | _ => false
    else false

/-- A borrowed `&[u8]` slice value (zero-copy views are materialized as the
byte lists they denote). -/
abbrev ByteSeq := List Nat

/-- `src/decoder.rs` `enum Payload`.  Numeric payloads are decoded values;
`Float32/Float64/Decimal32/Decimal64` keep their raw little-endian bytes
(bit patterns; no IEEE arithmetic is modelled); `String` keeps the
UTF-8-validated bytes. -/
inductive Payload where
  | Null
  | Bool (value : Bool)
  | Nat (bytes : ByteSeq)
  | Nat8 (value : ℕ)
  | Nat16 (value : ℕ)
  | Nat32 (value : ℕ)
  | Nat64 (value : ℕ)
  | Int (bytes : ByteSeq)
  | Int8 (value : ℤ)
  | Int16 (value : ℤ)
  | Int32 (value : ℤ)
  | Int64 (value : ℤ)
  | Float32 (bytes : ByteSeq)
  | Float64 (bytes : ByteSeq)
  | Decimal32 (bytes : ByteSeq)
  | Decimal64 (bytes : ByteSeq)
  | Bytes (bytes : ByteSeq)
  | String (bytes : ByteSeq)
  | Symbol (bytes : ByteSeq)
  | List (bytes : ByteSeq)
deriving Repr, DecidableEq

/-- A `next_uN_le` read with `InputExhausted` on failure (the reader does
not move on failure). -/
def readULE (k : Nat) (r : Reader) : DStep Nat :=
  match r.nextULE k with
  | some (v, r1) => .ok v r1
  | none => .error .InputExhausted r

/-- A `next_iN_le` read. -/
def readILE (k : Nat) (r : Reader) : DStep Int :=
  match r.nextN k with
  | some (s, r1) => .ok (intOfLE k s) r1
  | none => .error .InputExhausted r

/-- A `next_bytes_le::<K>` read kept as raw bytes (little-endian host). -/
def readRaw (k : Nat) (r : Reader) : DStep ByteSeq :=
  match r.nextN k with
  | some (s, r1) => .ok s r1
  | none => .error .InputExhausted r

/-- `src/decoder.rs` `decode_payload`. -/
def decodePayload (ty : WireType) (r : Reader) : DStep Payload :=
  match ty with
  | .Null => .ok .Null r
  | .BoolFalse => .ok (.Bool false) r
  | .BoolTrue => .ok (.Bool true) r
  | .Nat8 => dbind (readULE 1 r) fun v r1 => .ok (.Nat8 v) r1
  | .Nat16 => dbind (readULE 2 r) fun v r1 => .ok (.Nat16 v) r1
  | .Nat32 => dbind (readULE 4 r) fun v r1 => .ok (.Nat32 v) r1
  | .Nat64 => dbind (readULE 8 r) fun v r1 => .ok (.Nat64 v) r1
  | .Int8 => dbind (readILE 1 r) fun v r1 => .ok (.Int8 v) r1
  | .Int16 => dbind (readILE 2 r) fun v r1 => .ok (.Int16 v) r1
  | .Int32 => dbind (readILE 4 r) fun v r1 => .ok (.Int32 v) r1
  | .Int64 => dbind (readILE 8 r) fun v r1 => .ok (.Int64 v) r1
  | .Float32 => dbind (readRaw 4 r) fun s r1 => .ok (.Float32 s) r1
  | .Float64 => dbind (readRaw 8 r) fun s r1 => .ok (.Float64 s) r1
  | .Decimal32 => dbind (readRaw 4 r) fun s r1 => .ok (.Decimal32 s) r1
  | .Decimal64 => dbind (readRaw 8 r) fun s r1 => .ok (.Decimal64 s) r1
  | .Nat => dbind (decodeVarBytes r) fun s r1 => .ok (.Nat s) r1
  | .Int => dbind (decodeVarBytes r) fun s r1 => .ok (.Int s) r1
  | .Bytes => dbind (decodeVarBytes r) fun s r1 => .ok (.Bytes s) r1
  | .Symbol => dbind (decodeVarBytes r) fun s r1 => .ok (.Symbol s) r1
  | .List => dbind (decodeVarBytes r) fun s r1 => .ok (.List s) r1
  | .String =>
    dbind (decodeVarBytes r) fun s r1 =>
      if isValidUtf8 s then .ok (.String s) r1 else .error .StringInvalidUtf8 r1

/-- `src/decoder.rs` `struct Value` (borrowed views are the byte lists they
denote). -/
structure Value where
  ty : WireType
  hasKind : Bool
  hasTags : Bool
  kind : ByteSeq
  tags : ByteSeq
  payload : Payload
deriving Repr, DecidableEq

/-- The tags step of `decode_value`: when `has_tags` is set, read a varint
size and that many raw bytes; otherwise the empty slice `&buffer[0..0]`. -/
def readTags (hasTags : Bool) (r : Reader) : DStep ByteSeq :=
  if hasTags then decodeVarBytes r else .ok [] r

/-- The part of `decode_value` after the header byte has been read: wire
type range check and `transmute` (the table lookup), flag extraction, the
`unimplemented!()` panic on `has_kind`, the tags slice, the payload. -/
def decodeValueBody (tbl : Nat → Option WireType) (header : Nat) (r1 : Reader) :
    DStep Value :=
  match tbl (header &&& wireTypeMask) with
  | none => .error .InvalidWireType r1
  | some ty =>
    if decide (header &&& wireFlagKind ≠ 0) then .panic
    else
      dbind (readTags (decide (header &&& wireFlagTags ≠ 0)) r1) fun tags r2 =>
        dbind (decodePayload ty r2) fun payload r3 =>
          .ok ⟨ty, decide (header &&& wireFlagKind ≠ 0),
               decide (header &&& wireFlagTags ≠ 0), [], tags, payload⟩ r3

/-- `src/decoder.rs` `decode_value`, parameterized by the byte-to-wire-type
table the `transmute` uses (the source has two conflicting enum drafts, see
`wireTypeOfByte` and `wireTypeOfByteCommon`).  The `has_kind` branch is
`unimplemented!()`, a panic. -/
def decodeValueT (tbl : Nat → Option WireType) (r : Reader) : DStep Value :=
  dbind (readULE 1 r) (decodeValueBody tbl)

/-- `decode_value` under the table of `src/wire_type.rs` (the enum
`src/lib.rs` re-exports; the configuration under which the crate's own
JSON round-trip test passes). -/
def decodeValue : Reader → DStep Value := decodeValueT wireTypeOfByte

/-- `decode_value` under the stale table of `src/common.rs` (the enum that
`src/decoder.rs`'s literal `use crate::common::*;` import names). -/
def decodeValueCommon : Reader → DStep Value := decodeValueT wireTypeOfByteCommon

/-- `src/decoder.rs` `struct TagDecoder`. -/
structure TagDecoder where
  remaining : Nat
  reader : Reader
  error : Option Error
deriving Repr, DecidableEq

/-- `TagDecoder::new`: decode the leading count, require at least two bytes
per announced pair. -/
def TagDecoder.new (tags : ByteSeq) : PRes Error TagDecoder :=
  match decodeList tags with
  | .ok (remaining, reader) =>
    if reader.remaining < 2 * remaining then .error .TagsInvalidLength
    else .ok ⟨remaining, reader, none⟩
  | .error e => .error e
  | .panic => .panic

/-- `TagDecoder::check_error`. -/
def TagDecoder.checkError (td : TagDecoder) : PRes Error Unit :=
  match td.error with
  | some e => .error e
  | none =>
    if 0 < td.remaining then .error .TagsInputExhausted
    else if td.reader.hasSome then .error .TagsTrailingData
    else .ok ()

/-- `<TagDecoder as Iterator>::next`: decode a symbol then a value; a decode
error is stored in `self.error` and the call yields no item (`remaining` is
not decremented and the reader keeps its partial advancement); decode panics
propagate. -/
def TagDecoder.next (td : TagDecoder) :
    PRes Error (Option (ByteSeq × Value) × TagDecoder) :=
  if 0 < td.remaining then
    match decodeTagSymbol td.reader with
    | .panic => .panic
    | .error e r1 => .ok (none, ⟨td.remaining, r1, some e⟩)
    | .ok symbol r1 =>
      match decodeValue r1 with
      | .panic => .panic
      | .error e r2 => .ok (none, ⟨td.remaining, r2, some e⟩)
      | .ok value r2 => .ok (some (symbol, value), ⟨td.remaining - 1, r2, td.error⟩)
  else
    .ok (none, td)

/-- `src/decoder.rs` `struct ListDecoder`. -/
structure ListDecoder where
  remaining : Nat
  reader : Reader
  error : Option Error
deriving Repr, DecidableEq

/-- `ListDecoder::new`: at least one byte per announced element. -/
def ListDecoder.new (payload : ByteSeq) : PRes Error ListDecoder :=
  match decodeList payload with
  | .ok (remaining, reader) =>
    if reader.remaining < remaining then .error .ListInvalidLength
    else .ok ⟨remaining, reader, none⟩
  | .error e => .error e
  | .panic => .panic

/-- `ListDecoder::check_error`. -/
def ListDecoder.checkError (ld : ListDecoder) : PRes Error Unit :=
  match ld.error with
  | some e => .error e
  | none =>
    if 0 < ld.remaining then .error .ListInputExhausted
    else if ld.reader.hasSome then .error .ListTrailingData
    else .ok ()

/-- `<ListDecoder as Iterator>::next`. -/
def ListDecoder.next (ld : ListDecoder) :
    PRes Error (Option Value × ListDecoder) :=
  if 0 < ld.remaining then
    match decodeValue ld.reader with
    | .panic => .panic
    | .error e r1 => .ok (none, ⟨ld.remaining, r1, some e⟩)
    | .ok value r1 => .ok (some value, ⟨ld.remaining - 1, r1, ld.error⟩)
  else
    .ok (none, ld)

/-- Length of the `List` payload slice of a value (0 otherwise); part of the
recursion budget for `validateValue`. -/
def payloadListLen : Payload → Nat
  | .List bs => bs.length
  | _ => 0

/-- Recursion budget for `validateValue` on a given value.  The Rust
`_validate` recursion is driven by values decoded out of `v.tags` / the
list payload, whose own slices are strictly shorter, so this budget is
ample; it is a function of the value alone so that equal values validate
identically. -/
def vfuel (v : Value) : Nat := 2 * (v.tags.length + payloadListLen v.payload) + 2

/-- The pending work items of the `_validate` recursion: validate a value,
or drain one of the two iterators (validating each yielded value) and then
`check_error` it.  `budget` is the iterator's `remaining` at entry. -/
inductive VTask where
  | val (v : Value)
  | tagsLoop (budget : Nat) (td : TagDecoder)
  | listLoop (budget : Nat) (ld : ListDecoder)

/-- `src/lib.rs` `_validate`, fuel-indexed so that the recursion is
structural (every recursive call decrements `fuel` by one).  A `val` task
drains the tag iterator when `has_tags` is set and `check_error`s it, then
does the same for a `List` payload.  The loop tasks mirror the
`for … in &mut iterator` loops followed by `check_error()`.  The fuel never
runs out when started at the `vfuel` budget (panics on fuel exhaustion are
a model artifact below that budget). -/
def validateGo : Nat → VTask → PRes Error Unit
  | 0, _ => .panic
  | fuel + 1, .val v =>
    let tagsStep : PRes Error Unit :=
      if v.hasTags then
        match TagDecoder.new v.tags with
        | .error e => .error e
        | .panic => .panic
        | .ok td => validateGo fuel (.tagsLoop td.remaining td)
      else .ok ()
    match tagsStep with
    | .error e => .error e
    | .panic => .panic
    | .ok _ =>
      match v.payload with
      | .List bs =>
        match ListDecoder.new bs with
        | .error e => .error e
        | .panic => .panic
        | .ok ld => validateGo fuel (.listLoop ld.remaining ld)
      | _ => .ok ()
  | _ + 1, .tagsLoop 0 td =>
    match td.next with
    | .ok (none, td1) => td1.checkError
    | .ok (some _, _) => .panic
    | .error e => .error e
    | .panic => .panic
  | fuel + 1, .tagsLoop (budget + 1) td =>
    match td.next with
    | .ok (none, td1) => td1.checkError
    | .ok (some (_, value), td1) =>
      match validateGo fuel (.val value) with
      | .ok _ => validateGo fuel (.tagsLoop budget td1)
      | .error e => .error e
      | .panic => .panic
    | .error e => .error e
    | .panic => .panic
  | _ + 1, .listLoop 0 ld =>
    match ld.next with
    | .ok (none, ld1) => ld1.checkError
    | .ok (some _, _) => .panic
    | .error e => .error e
    | .panic => .panic
  | fuel + 1, .listLoop (budget + 1) ld =>
    match ld.next with
    | .ok (none, ld1) => ld1.checkError
    | .ok (some value, ld1) =>
      match validateGo fuel (.val value) with
      | .ok _ => validateGo fuel (.listLoop budget ld1)
      | .error e => .error e
      | .panic => .panic
    | .error e => .error e
    | .panic => .panic

/-- `_validate` on one value, at its own fuel budget. -/
def validateValue (fuel : Nat) (v : Value) : PRes Error Unit :=
  validateGo fuel (.val v)

/-- `src/lib.rs` `validate`: decode the root value, run `_validate`, then
require the outer reader to be exhausted (else `TrailingData`). -/
def validate (buffer : List Nat) : PRes Error Unit :=
  match decodeValue (Reader.new buffer) with
  | .panic => .panic
  | .error e _ => .error e
  | .ok v r =>
    match validateValue (vfuel v) v with
    | .error e => .error e
    | .panic => .panic
    | .ok _ => if r.hasSome then .error .TrailingData else .ok ()

/-- `src/encoder.rs` `enum Error`. -/
inductive EncError where
  | SizeOverflow
deriving Repr, DecidableEq

/-- `src/encoder.rs` `struct Sizer`. -/
structure Sizer where
  offset : Nat
  size : Nat
deriving Repr, DecidableEq

/-- `src/encoder.rs` `struct Encoder`.  The sizer stack is kept with the
most recently pushed scope at the head (Rust pushes/pops at the `Vec` end);
the root sizer is the last element. -/
structure Encoder where
  buffer : List Nat
  sizers : List Sizer
  sizeOffsets : List Nat
  lastSizeOffset : Nat
  sizeMaxBytes : Nat
  compressSizes : Bool
  sizeOverflow : Bool
deriving Repr, DecidableEq

/-- The state `Encoder::new` constructs. -/
def mkEncoder (sizeMaxBytes : Nat) (compressSizes : Bool) : Encoder :=
  ⟨[], [⟨0, 0⟩], [], 0, sizeMaxBytes, compressSizes, false⟩

/-- `Encoder::new`; widths outside `1 | 2 | 4 | 8` hit `unreachable!()`. -/
def Encoder.new (sizeMaxBytes : Nat) (compressSizes : Bool) :
    PRes EncError Encoder :=
  if sizeMaxBytes = 1 ∨ sizeMaxBytes = 2 ∨ sizeMaxBytes = 4 ∨ sizeMaxBytes = 8
  then .ok (mkEncoder sizeMaxBytes compressSizes)
  else .panic

/-- `Encoder::commit_size`: add to the top sizer's running size
(`last_mut().unwrap()` panics on an empty stack). -/
def Encoder.commitSize (e : Encoder) (n : Nat) : PRes EncError Encoder :=
  match e.sizers with
  | [] => .panic
  | s :: rest => .ok { e with sizers := ⟨s.offset, s.size + n⟩ :: rest }

/-- `Encoder::append`. -/
def Encoder.append (e : Encoder) (bytes : List Nat) : PRes EncError Encoder :=
  Encoder.commitSize { e with buffer := e.buffer ++ bytes } bytes.length

/-- `Encoder::append_byte`. -/
def Encoder.appendByte (e : Encoder) (byte : Nat) : PRes EncError Encoder :=
  Encoder.commitSize { e with buffer := e.buffer ++ [byte] } 1

/-- `Encoder::append_size` (`encode_size`'s `unreachable!()` propagates as a
panic). -/
def Encoder.appendSize (e : Encoder) (value : Nat) : PRes EncError Encoder :=
  match encodeSize value with
  | none => .panic
  | some (bytes, length) => e.append (bytes.take length)

/-- `Encoder::append_symbol`: `varint(len << 1 | 1)` then the raw bytes
(the `usize` shift wraps modulo `2 ^ 64`). -/
def Encoder.appendSymbol (e : Encoder) (symbol : List Nat) : PRes EncError Encoder :=
  match encodeSize ((symbol.length <<< 1) % 2 ^ 64 ||| 1) with
  | none => .panic
  | some (bytes, length) =>
    match e.append (bytes.take length) with
    | .ok e1 => e1.append symbol
    | .error err => .error err
    | .panic => .panic

/-- `Encoder::begin_size`: reserve a `size_max_bytes` placeholder of zeros,
push a sizer, and (when compressing) log the varint-encoded offset delta. -/
def Encoder.beginSize (e : Encoder) : PRes EncError Encoder :=
  let offset := e.buffer.length
  let e1 := { e with
    buffer := e.buffer ++ List.replicate e.sizeMaxBytes 0,
    sizers := (⟨offset, 0⟩ : Sizer) :: e.sizers }
  if e.compressSizes then
    match encodeSize (offset - e.lastSizeOffset) with
    | none => .panic
    | some (bytes, length) =>
      .ok { e1 with
        sizeOffsets := e1.sizeOffsets ++ bytes.take length,
        lastSizeOffset := offset }
  else
    .ok e1

/-- `Encoder::end_size`: pop the top sizer (`assert!(sizers.len() > 1)`),
encode its size, latch `size_overflow` when the varint needs more than
`size_max_bytes` bytes, overwrite the placeholder with the first
`size_max_bytes` encoded bytes (widths outside `1 | 2 | 4 | 8` and
out-of-range slice indexing panic), and credit the enclosing scope. -/
def Encoder.endSize (e : Encoder) : PRes EncError Encoder :=
  match e.sizers with
  | sizer :: s :: rs =>
    match encodeSize sizer.size with
    | none => .panic
    | some (bytes, length) =>
      let W := e.sizeMaxBytes
      if W = 1 ∨ W = 2 ∨ W = 4 ∨ W = 8 then
        if sizer.offset + W ≤ e.buffer.length then
          let buffer :=
            e.buffer.take sizer.offset ++ bytes.take W ++ e.buffer.drop (sizer.offset + W)
          let commit := if e.compressSizes then length + sizer.size else W + sizer.size
          .ok { e with
            buffer,
            sizers := (⟨s.offset, s.size + commit⟩ : Sizer) :: rs,
            sizeOverflow := e.sizeOverflow || decide (W < length) }
        else .panic
      else .panic
  | _ => .panic

/-- `Encoder::size`: the root scope's running size
(`assert!(sizers.len() == 1)`). -/
def Encoder.size (e : Encoder) : PRes EncError Nat :=
  match e.sizers with
  | [s] => .ok s.size
  | _ => .panic

/-- The `while buffer.has_some()` loop of `Encoder::compress`.  `fuel` is a
termination budget (the loop advances the buffer reader by at least one byte
per iteration, so `buffer.length + 1` is ample); exhausting it is modelled
as a panic, and the correctness proofs show it is never exhausted.  All
`unwrap`s are panics.  The `next_size -= size_max_bytes` subtraction is on
`usize`; in every reachable state `next_size ≥ size_max_bytes` holds, so
truncated `Nat` subtraction is faithful there. -/
def compressLoop (W : Nat) :
    Nat → Reader → Reader → Bool → List Nat → PRes EncError (List Nat)
  | 0, _, _, _, _ => .panic
  | fuel + 1, rb, ro, first, dest =>
    if rb.hasSome then
      if ro.hasSome then
        match decodeSize ro with
        | none => .panic
        | some (nextSize, ro1) =>
          let gap := if first then nextSize else nextSize - W
          match rb.nextN gap with
          | none => .panic
          | some (chunk, rb1) =>
            match peekDecodeSize rb1 with
            | none => .panic
            | some (_, length) =>
              match rb1.peekN length with
              | none => .panic
              | some varBytes =>
                match rb1.nextN W with
                | none => .panic
                | some (_, rb2) =>
                  compressLoop W fuel rb2 ro1 false (dest ++ chunk ++ varBytes)
      else .ok (dest ++ rb.rest)
    else .ok dest

/-- `Encoder::compress`: run the compaction loop over the buffer and the
offsets log, then `assert_eq!(dest.len() - old_length, size)`. -/
def Encoder.compress (e : Encoder) (dest : List Nat) : PRes EncError (List Nat) :=
  match e.size with
  | .ok size =>
    match compressLoop e.sizeMaxBytes (e.buffer.length + 1)
        (Reader.new e.buffer) (Reader.new e.sizeOffsets) true dest with
    | .ok out => if out.length - dest.length = size then .ok out else .panic
    | .error err => .error err
    | .panic => .panic
  | .error err => .error err
  | .panic => .panic

/-- `Encoder::build` (`assert!(sizers.len() == 1)`; a latched overflow
fails with `SizeOverflow`; compressing mode compacts into a fresh vector,
otherwise the working buffer is returned verbatim). -/
def Encoder.build (e : Encoder) : PRes EncError (List Nat) :=
  if e.sizers.length = 1 then
    if e.sizeOverflow then .error .SizeOverflow
    else if e.compressSizes then e.compress [] else .ok e.buffer
  else .panic

/-- `Encoder::build_append`: like `build` but extends a caller-supplied
vector (returned here as the extended list). -/
def Encoder.buildAppend (e : Encoder) (dest : List Nat) : PRes EncError (List Nat) :=
  if e.sizers.length = 1 then
    if e.sizeOverflow then .error .SizeOverflow
    else if e.compressSizes then e.compress dest else .ok (dest ++ e.buffer)
  else .panic

/-- A public-API encoder operation (the logical-tree construction
alphabet). -/
inductive Op where
  | append (bytes : List Nat)
  | appendByte (byte : Nat)
  | appendSize (value : Nat)
  | appendSymbol (symbol : List Nat)
  | beginSize
  | endSize
deriving Repr, DecidableEq

/-- Run one operation. -/
def execOp (e : Encoder) : Op → PRes EncError Encoder
  | .append bytes => e.append bytes
  | .appendByte byte => e.appendByte byte
  | .appendSize value => e.appendSize value
  | .appendSymbol symbol => e.appendSymbol symbol
  | .beginSize => e.beginSize
  | .endSize => e.endSize

/-- Run a sequence of operations. -/
def execOps (e : Encoder) : List Op → PRes EncError Encoder
  | [] => .ok e
  | op :: ops =>
    match execOp e op with
    | .ok e1 => execOps e1 ops
    | .error err => .error err
    | .panic => .panic

/-! ### Ghost decomposition of the encoder state

The correctness argument for `Encoder::compress` tracks, for every open
scope, the parsed structure of the bytes the encoder has emitted: raw
appended chunks and (closed) placeholder blocks.  These definitions build
the candidate buffer/offsets-log contents from that ghost structure; the
`EncInv` relation ties them to the concrete `Encoder` fields and is shown
to be preserved by every operation. -/

/-- One element of a scope's emitted region: a raw chunk of appended bytes,
or a closed placeholder that was patched with the varint of size `S`. -/
inductive Item where
  | chunk (bs : List Nat)
  | ph (S : Nat)
deriving Repr, DecidableEq

/-- The 8-byte array `encode_size` produces (junk `[]` above `2^62`). -/
def encBytes (S : Nat) : List Nat :=
  match encodeSize S with
  | some (b8, _) => b8
  | none => []

/-- The varint length `encode_size` chooses (junk `0` above `2^62`). -/
def encLen (S : Nat) : Nat :=
  match encodeSize S with
  | some (_, l) => l
  | none => 0

/-- The bytes an item occupies in the working buffer: a chunk verbatim; a
closed placeholder holds the first `W` bytes of the encoded size. -/
def Item.bytes (W : Nat) : Item → List Nat
  | .chunk bs => bs
  | .ph S => (encBytes S).take W

/-- The bytes an item contributes to the compacted output: a chunk
verbatim; a placeholder only its minimal varint (`encLen S` bytes). -/
def Item.clen (W : Nat) : Item → Nat
  | .chunk bs => bs.length
  | .ph S => encLen S

/-- A region's bytes in the working buffer. -/
def flatI (W : Nat) : List Item → List Nat
  | [] => []
  | it :: rest => it.bytes W ++ flatI W rest

/-- A region's compacted length (what `running_size` accounts). -/
def clenI (W : Nat) : List Item → Nat
  | [] => 0
  | it :: rest => it.clen W + clenI W rest

/-- The sizes of the closed placeholders of a region, in order. -/
def phS : List Item → List Nat
  | [] => []
  | .chunk _ :: rest => phS rest
  | .ph S :: rest => S :: phS rest

/-- The buffer positions of a region's closed placeholders, when the region
starts at `start`. -/
def phPosI (W : Nat) (start : Nat) : List Item → List Nat
  | [] => []
  | .chunk bs :: rest => phPosI W (start + bs.length) rest
  | .ph S :: rest => start :: phPosI W (start + W) rest

/-- The working buffer described by the scope stack (top-first, aligned
with `Encoder.sizers`): the root region, then for each nested scope its
still-zero open placeholder followed by its region. -/
def stackFlatT (W : Nat) : List (List Item) → List Nat
  | [] => []
  | [g] => flatI W g
  | g :: rest => stackFlatT W rest ++ (List.replicate W 0 ++ flatI W g)

/-- The `offset` each sizer on the stack should hold (top-first; the root's
is the initial `0`). -/
def qposT (W : Nat) : List (List Item) → List Nat
  | [] => []
  | [_] => [0]
  | _ :: rest => (stackFlatT W rest).length :: qposT W rest

/-- All placeholder positions — closed ones inside regions and the open
scope markers — in buffer order. -/
def stackPosT (W : Nat) : List (List Item) → List Nat
  | [] => []
  | [g] => phPosI W 0 g
  | g :: rest =>
    stackPosT W rest ++
      ((stackFlatT W rest).length ::
        phPosI W ((stackFlatT W rest).length + W) g)

/-- All closed placeholder sizes anywhere in the stack. -/
def allPhS : List (List Item) → List Nat
  | [] => []
  | g :: rest => phS g ++ allPhS rest

/-- Deltas between consecutive placeholder positions, the first relative to
`last` (mirrors the `offset - last_size_offset` log entries). -/
def deltasFrom (last : Nat) : List Nat → List Nat
  | [] => []
  | p :: rest => (p - last) :: deltasFrom p rest

/-- Concatenation of the minimal varint encodings of a list of values (the
`size_offsets` byte stream). -/
def varcat : List Nat → List Nat
  | [] => []
  | d :: rest => (encBytes d).take (encLen d) ++ varcat rest

/-- The leading chunk bytes of a region, up to its first placeholder. -/
def leadBytes : List Item → List Nat
  | [] => []
  | .chunk bs :: rest => bs ++ leadBytes rest
  | .ph _ :: _ => []

/-- A region regrouped around its placeholders: each entry is a placeholder
size with the chunk bytes that follow it (up to the next placeholder). -/
def segsOf : List Item → List (Nat × List Nat)
  | [] => []
  | .chunk _ :: rest => segsOf rest
  | .ph S :: rest => (S, leadBytes rest) :: segsOf rest

/-- The working-buffer bytes of a segment list. -/
def segFlat (W : Nat) : List (Nat × List Nat) → List Nat
  | [] => []
  | (S, g) :: rest => (encBytes S).take W ++ g ++ segFlat W rest

/-- The compacted bytes of a segment list. -/
def segOut : List (Nat × List Nat) → List Nat
  | [] => []
  | (S, g) :: rest => (encBytes S).take (encLen S) ++ g ++ segOut rest

/-- The offset deltas the compaction loop expects for a segment list:
`d0` is the delta recorded for the first placeholder; each later delta is
the intervening chunk length plus the placeholder width. -/
def segDeltas (W : Nat) (d0 : Nat) : List (Nat × List Nat) → List Nat
  | [] => []
  | (_, g) :: rest => d0 :: segDeltas W (g.length + W) rest

/-- The ghost invariant tying an `Encoder` (in compressing mode) to the
ghost scope stack `gs` (top-first, aligned with `sizers`). -/
def EncInv (e : Encoder) (gs : List (List Item)) : Prop :=
  e.compressSizes = true ∧
  (e.sizeMaxBytes = 1 ∨ e.sizeMaxBytes = 2 ∨
   e.sizeMaxBytes = 4 ∨ e.sizeMaxBytes = 8) ∧
  gs ≠ [] ∧
  e.buffer = stackFlatT e.sizeMaxBytes gs ∧
  e.sizers.map Sizer.offset = qposT e.sizeMaxBytes gs ∧
  e.sizers.map Sizer.size = gs.map (clenI e.sizeMaxBytes) ∧
  e.sizeOffsets = varcat (deltasFrom 0 (stackPosT e.sizeMaxBytes gs)) ∧
  e.lastSizeOffset = (stackPosT e.sizeMaxBytes gs).getLast?.getD 0 ∧
  (∀ d ∈ deltasFrom 0 (stackPosT e.sizeMaxBytes gs), d < 2 ^ 62) ∧
  (∀ S ∈ allPhS gs, S < 2 ^ 62) ∧
  (e.sizeOverflow = false → ∀ S ∈ allPhS gs, encLen S ≤ e.sizeMaxBytes)


/-- The coupling between a compressing-mode encoder run and a plain-mode
run of the same operations: equal buffer lengths, equal sizer offset
stacks, equal widths; the second component is the `compress_sizes = false`
run. -/
def MRel (ec eu : Encoder) : Prop :=
  eu.buffer.length = ec.buffer.length ∧
  eu.sizers.map Sizer.offset = ec.sizers.map Sizer.offset ∧
  eu.sizeMaxBytes = ec.sizeMaxBytes ∧
  eu.compressSizes = false

/-! ### Lemmas: the varint size codec -/

theorem bitLenAux_le_iff (f : Nat) :
    ∀ {m n : Nat}, n < 2 ^ f → m ≤ f → (bitLenAux f n ≤ m ↔ n < 2 ^ m) := by
  induction f with
  | zero =>
    intro m n hn hm
    have hm0 : m = 0 := Nat.le_zero.mp hm
    subst hm0
    simpa [bitLenAux] using hn
  | succ f ih =>
    intro m n hn hm
    by_cases h0 : n = 0
    · subst h0
      simp [bitLenAux, Nat.pos_pow_of_pos]
    · cases m with
      | zero =>
        simp only [bitLenAux, h0, if_false, pow_zero]
        omega
      | succ m =>
        have h2 : (0 : Nat) < 2 := by norm_num
        have hn2 : n / 2 < 2 ^ f := by
          rw [Nat.div_lt_iff_lt_mul h2]
          calc n < 2 ^ (f + 1) := hn
            _ = 2 ^ f * 2 := by rw [Nat.pow_succ]
        have ihm := ih hn2 (Nat.le_of_succ_le_succ hm)
        simp only [bitLenAux, h0, if_false]
        have hstep : bitLenAux f (n / 2) + 1 ≤ m + 1 ↔ bitLenAux f (n / 2) ≤ m := by
          omega
        rw [hstep, ihm, Nat.div_lt_iff_lt_mul h2, ← Nat.pow_succ]

theorem bitLenAux_gt (f : Nat) :
    ∀ {m n : Nat}, 2 ^ m ≤ n → m < f → m < bitLenAux f n := by
  induction f with
  | zero => intro m n _ hm; omega
  | succ f ih =>
    intro m n hn hm
    have h0 : n ≠ 0 := by
      have : (0 : Nat) < 2 ^ m := Nat.pos_pow_of_pos m (by norm_num)
      omega
    cases m with
    | zero =>
      simp only [bitLenAux, h0, if_false]
      omega
    | succ m =>
      have h2 : (0 : Nat) < 2 := by norm_num
      have hn2 : 2 ^ m ≤ n / 2 := by
        rw [Nat.le_div_iff_mul_le h2, ← Nat.pow_succ]
        exact hn
      have := ih hn2 (Nat.lt_of_succ_lt_succ hm)
      simp only [bitLenAux, h0, if_false]
      omega

theorem u64Bits_le_iff {m n : Nat} (hn : n < 2 ^ 64) (hm : m ≤ 64) :
    u64Bits n ≤ m ↔ n < 2 ^ m :=
  bitLenAux_le_iff 64 hn hm

theorem shiftOr_eq {v t : Nat} (ht : t < 4) (hv : 4 * v < 2 ^ 64) :
    (v <<< 2) % 2 ^ 64 ||| t = 4 * v + t := by
  rw [Nat.shiftLeft_eq]
  have h1 : v * 2 ^ 2 = 2 ^ 2 * v := by ring
  rw [h1]
  have h2 : 2 ^ 2 * v % 2 ^ 64 = 2 ^ 2 * v := Nat.mod_eq_of_lt (by omega)
  rw [h2, ← Nat.mul_add_lt_is_or (by omega : t < 2 ^ 2) v]

theorem encodeSize_class1 {v : Nat} (h : v < 2 ^ 6) :
    encodeSize v = some (toLE8 (4 * v), 1) := by
  have hb : u64Bits v ≤ 6 :=
    (u64Bits_le_iff (m := 6) (lt_trans h (by norm_num)) (by norm_num)).mpr h
  have hor : (v <<< 2) % 2 ^ 64 ||| 0 = 4 * v := by
    have h0 := shiftOr_eq (t := 0) (v := v) (by norm_num) (by omega)
    simpa using h0
  simp only [encodeSize]
  rw [if_pos (by omega : u64Bits v ≤ 8 - 2)]
  rw [show (0b00 : Nat) = 0 from rfl, hor]

theorem encodeSize_class2 {v : Nat} (h1 : ¬ v < 2 ^ 6) (h : v < 2 ^ 14) :
    encodeSize v = some (toLE8 (4 * v + 1), 2) := by
  have hv64 : v < 2 ^ 64 := lt_trans h (by norm_num)
  have hb1 : ¬ u64Bits v ≤ 6 := by
    rw [u64Bits_le_iff (m := 6) hv64 (by norm_num)]; exact h1
  have hb : u64Bits v ≤ 14 := (u64Bits_le_iff (m := 14) hv64 (by norm_num)).mpr h
  have hor : (v <<< 2) % 2 ^ 64 ||| 1 = 4 * v + 1 :=
    shiftOr_eq (by norm_num) (by omega)
  simp only [encodeSize]
  rw [if_neg (by omega : ¬ u64Bits v ≤ 8 - 2),
      if_pos (by omega : u64Bits v ≤ 16 - 2), hor]

theorem encodeSize_class4 {v : Nat} (h1 : ¬ v < 2 ^ 14) (h : v < 2 ^ 30) :
    encodeSize v = some (toLE8 (4 * v + 2), 4) := by
  have hv64 : v < 2 ^ 64 := lt_trans h (by norm_num)
  have hb1 : ¬ u64Bits v ≤ 14 := by
    rw [u64Bits_le_iff (m := 14) hv64 (by norm_num)]; exact h1
  have hb : u64Bits v ≤ 30 := (u64Bits_le_iff (m := 30) hv64 (by norm_num)).mpr h
  have hor : (v <<< 2) % 2 ^ 64 ||| 2 = 4 * v + 2 :=
    shiftOr_eq (by norm_num) (by omega)
  simp only [encodeSize]
  rw [if_neg (by omega : ¬ u64Bits v ≤ 8 - 2),
      if_neg (by omega : ¬ u64Bits v ≤ 16 - 2),
      if_pos (by omega : u64Bits v ≤ 32 - 2), hor]

theorem encodeSize_class8 {v : Nat} (h1 : ¬ v < 2 ^ 30) (h : v < 2 ^ 62) :
    encodeSize v = some (toLE8 (4 * v + 3), 8) := by
  have hv64 : v < 2 ^ 64 := lt_trans h (by norm_num)
  have hb1 : ¬ u64Bits v ≤ 30 := by
    rw [u64Bits_le_iff (m := 30) hv64 (by norm_num)]; exact h1
  have hb : u64Bits v ≤ 62 := (u64Bits_le_iff (m := 62) hv64 (by norm_num)).mpr h
  have hor : (v <<< 2) % 2 ^ 64 ||| 3 = 4 * v + 3 :=
    shiftOr_eq (by norm_num) (by omega)
  simp only [encodeSize]
  rw [if_neg (by omega : ¬ u64Bits v ≤ 8 - 2),
      if_neg (by omega : ¬ u64Bits v ≤ 16 - 2),
      if_neg (by omega : ¬ u64Bits v ≤ 32 - 2),
      if_pos (by omega : u64Bits v ≤ 64 - 2), hor]

theorem encodeSize_none {v : Nat} (h : 2 ^ 62 ≤ v) : encodeSize v = none := by
  have hb : 62 < u64Bits v := bitLenAux_gt 64 h (by norm_num)
  simp only [encodeSize]
  rw [if_neg (by omega), if_neg (by omega), if_neg (by omega), if_neg (by omega)]

theorem fromLE_toLE8_take1 (x : Nat) : fromLE ((toLE8 x).take 1) = x % 2 ^ 8 := by
  simp [toLE8, fromLE]

theorem fromLE_toLE8_take2 (x : Nat) : fromLE ((toLE8 x).take 2) = x % 2 ^ 16 := by
  simp [toLE8, fromLE]
  omega

theorem fromLE_toLE8_take4 (x : Nat) : fromLE ((toLE8 x).take 4) = x % 2 ^ 32 := by
  simp [toLE8, fromLE]
  omega

theorem fromLE_toLE8_take8 (x : Nat) : fromLE ((toLE8 x).take 8) = x % 2 ^ 64 := by
  simp [toLE8, fromLE]
  omega

theorem toLE8_head (x : Nat) : (toLE8 x).headI = x % 256 := by
  simp [toLE8]

theorem toLE8_length (x : Nat) : (toLE8 x).length = 8 := by
  simp [toLE8]

theorem toLE8_take_length {k : Nat} (hk : k ≤ 8) (x : Nat) :
    ((toLE8 x).take k).length = k := by
  simp [toLE8]
  omega

theorem nextN_append (pre mid post : List Nat) :
    Reader.nextN ⟨pre ++ (mid ++ post), pre.length⟩ mid.length =
      some (mid, ⟨pre ++ (mid ++ post), pre.length + mid.length⟩) := by
  have hasn : Reader.hasN ⟨pre ++ (mid ++ post), pre.length⟩ mid.length = true := by
    simp only [Reader.hasN, List.length_append, decide_eq_true_eq]
    omega
  have hdrop : (pre ++ (mid ++ post)).drop pre.length = mid ++ post :=
    List.drop_left pre (mid ++ post)
  have htake : (mid ++ post).take mid.length = mid := List.take_left mid post
  simp [Reader.nextN, Reader.peekN, hasn, hdrop, htake]

theorem peek_append (pre : List Nat) (b : Nat) (post : List Nat) :
    Reader.peek ⟨pre ++ (b :: post), pre.length⟩ 0 = some b := by
  simp only [Reader.peek, Nat.add_zero]
  rw [List.getElem?_append_right (Nat.le_refl pre.length)]
  simp

theorem mod256_and3 (x : Nat) : x % 256 &&& 3 = x % 4 := by
  rw [show (3 : Nat) = 2 ^ 2 - 1 from rfl, Nat.and_pow_two_sub_one_eq_mod,
      show (2 : Nat) ^ 2 = 4 from rfl]
  exact Nat.mod_mod_of_dvd x (by norm_num)

theorem decodeSize_at (pre post : List Nat) {x k : Nat} (hx : x < 2 ^ (8 * k))
    (hcls : x % 4 = 0 ∧ k = 1 ∨ x % 4 = 1 ∧ k = 2 ∨
            x % 4 = 2 ∧ k = 4 ∨ x % 4 = 3 ∧ k = 8) :
    decodeSize ⟨pre ++ ((toLE8 x).take k ++ post), pre.length⟩ =
      some (x / 4, ⟨pre ++ ((toLE8 x).take k ++ post), pre.length + k⟩) := by
  have hk8 : k ≤ 8 := by rcases hcls with ⟨_, h⟩ | ⟨_, h⟩ | ⟨_, h⟩ | ⟨_, h⟩ <;> omega
  have hlen : ((toLE8 x).take k).length = k := toLE8_take_length hk8 x
  have hs : (toLE8 x).take k = (x % 256) :: ((toLE8 x).take k).tail := by
    rcases hcls with ⟨_, h⟩ | ⟨_, h⟩ | ⟨_, h⟩ | ⟨_, h⟩ <;> subst h <;> simp [toLE8]
  have hpeek : Reader.peek ⟨pre ++ ((toLE8 x).take k ++ post), pre.length⟩ 0 =
      some (x % 256) := by
    rw [hs]
    simp only [List.cons_append]
    exact peek_append pre (x % 256) (((toLE8 x).take k).tail ++ post)
  have hnext := nextN_append pre ((toLE8 x).take k) post
  rw [hlen] at hnext
  have hfrom : fromLE ((toLE8 x).take k) = x := by
    rcases hcls with ⟨_, h⟩ | ⟨_, h⟩ | ⟨_, h⟩ | ⟨_, h⟩ <;> subst h
    · rw [fromLE_toLE8_take1]
      exact Nat.mod_eq_of_lt (by simpa using hx)
    · rw [fromLE_toLE8_take2]
      exact Nat.mod_eq_of_lt (by simpa using hx)
    · rw [fromLE_toLE8_take4]
      exact Nat.mod_eq_of_lt (by simpa using hx)
    · rw [fromLE_toLE8_take8]
      exact Nat.mod_eq_of_lt (by simpa using hx)
  have hULE : Reader.nextULE ⟨pre ++ ((toLE8 x).take k ++ post), pre.length⟩ k =
      some (x, ⟨pre ++ ((toLE8 x).take k ++ post), pre.length + k⟩) := by
    simp [Reader.nextULE, hnext, hfrom]
  have hdiv : x >>> 2 = x / 4 := by
    rw [Nat.shiftRight_eq_div_pow]
  have hclass : sizeClassLen (x % 256) = k := by
    unfold sizeClassLen
    rw [mod256_and3]
    rcases hcls with ⟨hc, h⟩ | ⟨hc, h⟩ | ⟨hc, h⟩ | ⟨hc, h⟩ <;> subst h <;> rw [hc]
  simp [decodeSize, hpeek, hclass, hULE, hdiv]

theorem decodeSize_encodeSize {v len : Nat} {b8 : List Nat}
    (henc : encodeSize v = some (b8, len)) (pre post : List Nat) :
    decodeSize ⟨pre ++ (b8.take len ++ post), pre.length⟩ =
      some (v, ⟨pre ++ (b8.take len ++ post), pre.length + len⟩) := by
  by_cases h1 : v < 2 ^ 6
  · rw [encodeSize_class1 h1] at henc
    simp only [Option.some.injEq, Prod.mk.injEq] at henc
    obtain ⟨rfl, rfl⟩ := henc
    have hx : 4 * v < 2 ^ (8 * 1) := by norm_num at h1 ⊢; omega
    have hres := decodeSize_at pre post hx (Or.inl ⟨by omega, rfl⟩)
    rwa [Nat.mul_div_cancel_left v (by norm_num : (0 : Nat) < 4)] at hres
  · by_cases h2 : v < 2 ^ 14
    · rw [encodeSize_class2 h1 h2] at henc
      simp only [Option.some.injEq, Prod.mk.injEq] at henc
      obtain ⟨rfl, rfl⟩ := henc
      have hx : 4 * v + 1 < 2 ^ (8 * 2) := by norm_num at h2 ⊢; omega
      have hres := decodeSize_at pre post hx (Or.inr (Or.inl ⟨by omega, rfl⟩))
      rwa [show (4 * v + 1) / 4 = v by omega] at hres
    · by_cases h3 : v < 2 ^ 30
      · rw [encodeSize_class4 h2 h3] at henc
        simp only [Option.some.injEq, Prod.mk.injEq] at henc
        obtain ⟨rfl, rfl⟩ := henc
        have hx : 4 * v + 2 < 2 ^ (8 * 4) := by norm_num at h3 ⊢; omega
        have hres := decodeSize_at pre post hx (Or.inr (Or.inr (Or.inl ⟨by omega, rfl⟩)))
        rwa [show (4 * v + 2) / 4 = v by omega] at hres
      · by_cases h4 : v < 2 ^ 62
        · rw [encodeSize_class8 h3 h4] at henc
          simp only [Option.some.injEq, Prod.mk.injEq] at henc
          obtain ⟨rfl, rfl⟩ := henc
          have hx : 4 * v + 3 < 2 ^ (8 * 8) := by norm_num at h4 ⊢; omega
          have hres := decodeSize_at pre post hx (Or.inr (Or.inr (Or.inr ⟨by omega, rfl⟩)))
          rwa [show (4 * v + 3) / 4 = v by omega] at hres
        · rw [encodeSize_none (by omega)] at henc
          exact absurd henc (by simp)

theorem decodeSize_encodeSize0 {v len : Nat} {b8 : List Nat}
    (henc : encodeSize v = some (b8, len)) :
    decodeSize ⟨b8.take len, 0⟩ = some (v, ⟨b8.take len, len⟩) := by
  have hres := decodeSize_encodeSize henc [] []
  simpa using hres

theorem encodeSize_len_le8 {v len : Nat} {b8 : List Nat}
    (henc : encodeSize v = some (b8, len)) :
    (len = 1 ∨ len = 2 ∨ len = 4 ∨ len = 8) ∧ b8.length = 8 ∧ 1 ≤ len ∧ len ≤ 8 := by
  by_cases h1 : v < 2 ^ 6
  · rw [encodeSize_class1 h1] at henc
    simp only [Option.some.injEq, Prod.mk.injEq] at henc
    obtain ⟨rfl, rfl⟩ := henc
    exact ⟨by omega, toLE8_length _, by omega, by omega⟩
  · by_cases h2 : v < 2 ^ 14
    · rw [encodeSize_class2 h1 h2] at henc
      simp only [Option.some.injEq, Prod.mk.injEq] at henc
      obtain ⟨rfl, rfl⟩ := henc
      exact ⟨by omega, toLE8_length _, by omega, by omega⟩
    · by_cases h3 : v < 2 ^ 30
      · rw [encodeSize_class4 h2 h3] at henc
        simp only [Option.some.injEq, Prod.mk.injEq] at henc
        obtain ⟨rfl, rfl⟩ := henc
        exact ⟨by omega, toLE8_length _, by omega, by omega⟩
      · by_cases h4 : v < 2 ^ 62
        · rw [encodeSize_class8 h3 h4] at henc
          simp only [Option.some.injEq, Prod.mk.injEq] at henc
          obtain ⟨rfl, rfl⟩ := henc
          exact ⟨by omega, toLE8_length _, by omega, by omega⟩
        · rw [encodeSize_none (by omega)] at henc
          exact absurd henc (by simp)

/-! ### Claim theorems: the varint codec (C1, C4) and the reader (C10) -/

/-- C1: for every `v` in `[0, 2^62)`, decoding the bytes produced by
`encode_size(v)` yields `v` again (consuming exactly the encoded bytes), and
the encoded length chosen by `encode_size` is the minimum class width:
1 byte when `v ≤ 2^6 - 1`, 2 bytes when `v ≤ 2^14 - 1`, 4 bytes when
`v ≤ 2^30 - 1`, and 8 bytes otherwise. -/
theorem c1_varint_roundtrip_minimal_width (v : Nat) (hv : v < 2 ^ 62) :
    ∃ bytes len,
      encodeSize v = some (bytes, len) ∧
      decodeSize ⟨bytes.take len, 0⟩ = some (v, ⟨bytes.take len, len⟩) ∧
      len = (if v ≤ 2 ^ 6 - 1 then 1 else if v ≤ 2 ^ 14 - 1 then 2
             else if v ≤ 2 ^ 30 - 1 then 4 else 8) := by
  by_cases h1 : v < 2 ^ 6
  · refine ⟨toLE8 (4 * v), 1, encodeSize_class1 h1,
      decodeSize_encodeSize0 (encodeSize_class1 h1), ?_⟩
    rw [if_pos (by omega)]
  · by_cases h2 : v < 2 ^ 14
    · refine ⟨toLE8 (4 * v + 1), 2, encodeSize_class2 h1 h2,
        decodeSize_encodeSize0 (encodeSize_class2 h1 h2), ?_⟩
      rw [if_neg (by omega), if_pos (by omega)]
    · by_cases h3 : v < 2 ^ 30
      · refine ⟨toLE8 (4 * v + 2), 4, encodeSize_class4 h2 h3,
          decodeSize_encodeSize0 (encodeSize_class4 h2 h3), ?_⟩
        rw [if_neg (by omega), if_neg (by omega), if_pos (by omega)]
      · refine ⟨toLE8 (4 * v + 3), 8, encodeSize_class8 h3 hv,
          decodeSize_encodeSize0 (encodeSize_class8 h3 hv), ?_⟩
        rw [if_neg (by omega), if_neg (by omega), if_neg (by omega)]

/-- Witness for C1 at `v = 1000` (two-byte class). -/
theorem c1_varint_roundtrip_minimal_width_witness :
    1000 < 2 ^ 62 ∧
    (∃ bytes len,
      encodeSize 1000 = some (bytes, len) ∧
      decodeSize ⟨bytes.take len, 0⟩ = some (1000, ⟨bytes.take len, len⟩) ∧
      len = (if 1000 ≤ 2 ^ 6 - 1 then 1 else if 1000 ≤ 2 ^ 14 - 1 then 2
             else if 1000 ≤ 2 ^ 30 - 1 then 4 else 8)) :=
  ⟨by norm_num, c1_varint_roundtrip_minimal_width 1000 (by norm_num)⟩

/-- C4 counterexample: at `v = 2^62` the encoder-side size encoding does
not fail with a `SizeOverflow` error — `encode_size` hits `unreachable!()`
(a crash, modelled as `none`), and `append_size` aborts the same way. -/
theorem c4_counterexample :
    encodeSize (2 ^ 62) = none ∧
    Encoder.appendSize (mkEncoder 8 true) (2 ^ 62) = .panic ∧
    Encoder.appendSize (mkEncoder 8 true) (2 ^ 62) ≠ .error .SizeOverflow := by
  have hn := encodeSize_none (v := 2 ^ 62) (le_refl _)
  refine ⟨hn, ?_, ?_⟩
  · simp only [Encoder.appendSize, hn]
  · simp only [Encoder.appendSize, hn]
    intro hcontra
    exact absurd hcontra (by simp)

/-- C4 (amended): applying the encoder-side varint size encoding
(`encode_size`, hence `append_size`) to a value `≥ 2^62` panics via
`unreachable!()` — it aborts rather than returning a "size overflow" error;
no bytes are ever produced (there is no silent mis-encode). -/
theorem c4_size_encoding_overflow_panics (v : Nat) (h : 2 ^ 62 ≤ v) :
    encodeSize v = none ∧ ∀ e : Encoder, e.appendSize v = .panic := by
  refine ⟨encodeSize_none h, fun e => ?_⟩
  simp only [Encoder.appendSize, encodeSize_none h]

/-- Witness for the amended C4 at `v = 2^62`. -/
theorem c4_size_encoding_overflow_panics_witness :
    2 ^ 62 ≤ 2 ^ 62 ∧
    (encodeSize (2 ^ 62) = none ∧
     ∀ e : Encoder, e.appendSize (2 ^ 62) = .panic) :=
  ⟨le_refl _, c4_size_encoding_overflow_panics (2 ^ 62) (le_refl _)⟩

/-- C10: `Reader::next_n(n)` is atomic: when `cursor + n ≤ buffer.length` it
returns the length-`n` subslice starting at the cursor and advances the
cursor by exactly `n`; otherwise it returns `None` without producing an
advanced reader (the Rust cursor is untouched on the `None` path). -/
theorem c10_nextN_atomic (r : Reader) (n : Nat) :
    (r.cursor + n ≤ r.buffer.length →
      r.nextN n = some ((r.buffer.drop r.cursor).take n, ⟨r.buffer, r.cursor + n⟩) ∧
      ((r.buffer.drop r.cursor).take n).length = n) ∧
    (r.buffer.length < r.cursor + n → r.nextN n = none) := by
  constructor
  · intro h
    have hasn : r.hasN n = true := by
      simp only [Reader.hasN, decide_eq_true_eq]
      exact h
    constructor
    · simp [Reader.nextN, Reader.peekN, hasn]
    · rw [List.length_take, List.length_drop]
      omega
  · intro h
    have hasn : r.hasN n = false := by
      simp only [Reader.hasN, decide_eq_false_iff_not]
      omega
    simp [Reader.nextN, Reader.peekN, hasn]

/-- Witness for C10: both branches at concrete readers. -/
theorem c10_nextN_atomic_witness :
    (Reader.nextN ⟨[7, 8, 9], 1⟩ 2 = some ([8, 9], ⟨[7, 8, 9], 3⟩) ∧
     (([7, 8, 9] : List Nat).drop 1).take 2 = [8, 9]) ∧
    Reader.nextN ⟨[7, 8, 9], 2⟩ 2 = none := by
  refine ⟨⟨?_, by decide⟩, ?_⟩
  · have hres := (c10_nextN_atomic ⟨[7, 8, 9], 1⟩ 2).1 (by decide)
    simpa using hres.1
  · exact (c10_nextN_atomic ⟨[7, 8, 9], 2⟩ 2).2 (by decide)

/-! ### Claim theorems: wire-type table (C2) and the HAS_KIND branch (C5) -/

/-- C2: the decoder as committed binds to the stale `src/common.rs` table
(`use crate::common::*`), under which code 4 is `Nat`, so `[0x04, 0xFF]`
fails with `InputExhausted` instead of producing `Nat8(255)`; under the
table of `src/wire_type.rs` (the enum `src/lib.rs` re-exports, matching the
specification's section-3 table, and the only table under which the crate's
own JSON round-trip test in `main()` can pass) the same input yields
`Nat8(255)`.  `String = 19` and `List = 21` hold under both tables. -/
theorem c2_wiretype_table_divergence :
    decodeValueCommon (Reader.new [0x04, 0xFF]) =
      .error .InputExhausted ⟨[0x04, 0xFF], 1⟩ ∧
    decodeValue (Reader.new [0x04, 0xFF]) =
      .ok ⟨.Nat8, false, false, [], [], .Nat8 255⟩ ⟨[0x04, 0xFF], 2⟩ ∧
    wireTypeOfByte 4 = some .Nat8 ∧ wireTypeOfByteCommon 4 = some .Nat ∧
    wireTypeOfByte 19 = some .String ∧ wireTypeOfByteCommon 19 = some .String ∧
    wireTypeOfByte 21 = some .List ∧ wireTypeOfByteCommon 21 = some .List := by
  decide

/-- C5 counterexample: `decode_value` on the header byte `0x41` (`Null` with
the `HAS_KIND` bit `0x40` set) aborts via `unimplemented!()` — modelled as
`DStep.panic`, which is by constructor disjointness not an `.error e r`
outcome for any `e`; in particular it is not an `UnsupportedFeature` error,
a variant the decoder's `Error` enum does not even contain. -/
theorem c5_counterexample :
    decodeValue (Reader.new [0x41]) = .panic := by
  decide

/-- C5 (amended): `decode_value` applied to a header byte with the
`HAS_KIND` bit (`0x40`) set and a valid wire-type code panics via
`unimplemented!()` — it neither decodes a kind payload nor returns an error
(the `Error` enum has no `UnsupportedFeature` variant). -/
theorem c5_haskind_panics (b : Nat) (bs : List Nat)
    (hty : (wireTypeOfByte (b &&& wireTypeMask)).isSome = true)
    (hkind : b &&& wireFlagKind ≠ 0) :
    decodeValue (Reader.new (b :: bs)) = .panic := by
  obtain ⟨ty, hty1⟩ := Option.isSome_iff_exists.mp hty
  have h1 : Reader.nextULE (Reader.new (b :: bs)) 1 = some (b, ⟨b :: bs, 1⟩) := by
    simp [Reader.nextULE, Reader.nextN, Reader.peekN, Reader.hasN, Reader.new, fromLE]
  simp [decodeValue, decodeValueT, decodeValueBody, readULE, h1, hty1, hkind, dbind]

/-- Witness for the amended C5 at header `0x41`. -/
theorem c5_haskind_panics_witness :
    (wireTypeOfByte (0x41 &&& wireTypeMask)).isSome = true ∧
    0x41 &&& wireFlagKind ≠ 0 ∧
    decodeValue (Reader.new [0x41]) = .panic :=
  ⟨by decide, by decide, c5_haskind_panics 0x41 [] (by decide) (by decide)⟩

/-! ### Claim theorems: iterator error latching (C9) -/

/-- C9 counterexample: over the tags slice
`[0x08, 0xFD, 0xFF, 0x04, 0x01]` (count 2), the first `next()` fails
(`InputExhausted`, latched, no item), but the iterator does **not**
terminate: the second `next()` succeeds and yields an item (an empty symbol
with a `Null` value) while the latched error is still set — refuting
"every subsequent call to next() yields no item". -/
theorem c9_counterexample :
    TagDecoder.new [8, 253, 255, 4, 1] =
      .ok ⟨2, ⟨[8, 253, 255, 4, 1], 1⟩, none⟩ ∧
    TagDecoder.next ⟨2, ⟨[8, 253, 255, 4, 1], 1⟩, none⟩ =
      .ok (none, ⟨2, ⟨[8, 253, 255, 4, 1], 3⟩, some .InputExhausted⟩) ∧
    TagDecoder.next ⟨2, ⟨[8, 253, 255, 4, 1], 3⟩, some .InputExhausted⟩ =
      .ok (some ([], ⟨.Null, false, false, [], [], .Null⟩),
           ⟨1, ⟨[8, 253, 255, 4, 1], 5⟩, some .InputExhausted⟩) := by
  decide

/-- C9 (amended): when a `next()` call on a `TagDecoder` or `ListDecoder`
fails to decode, the error is recorded in the iterator, that call yields no
item, `remaining` is not decremented, and `check_error` on the resulting
state returns the recorded error.  The iterator does not necessarily
terminate, however: a later `next()` may resume from the partially advanced
reader and yield further items (see the counterexample), and a later
failure overwrites the recorded error. -/
theorem c9_error_latches (td td' : TagDecoder) (ld ld' : ListDecoder)
    (ht : 0 < td.remaining) (hts : td.next = .ok (none, td'))
    (hl : 0 < ld.remaining) (hls : ld.next = .ok (none, ld')) :
    ((∃ e, td'.error = some e ∧ td'.checkError = .error e) ∧
      td'.remaining = td.remaining) ∧
    ((∃ e, ld'.error = some e ∧ ld'.checkError = .error e) ∧
      ld'.remaining = ld.remaining) := by
  constructor
  · unfold TagDecoder.next at hts
    rw [if_pos ht] at hts
    cases hsym : decodeTagSymbol td.reader with
    | panic => rw [hsym] at hts; exact absurd hts (by simp)
    | error e r1 =>
      rw [hsym] at hts
      simp only [PRes.ok.injEq, Prod.mk.injEq, true_and] at hts
      subst hts
      exact ⟨⟨e, rfl, by simp [TagDecoder.checkError]⟩, rfl⟩
    | ok sym r1 =>
      rw [hsym] at hts
      dsimp only at hts
      cases hval : decodeValue r1 with
      | panic => rw [hval] at hts; exact absurd hts (by simp)
      | error e r2 =>
        rw [hval] at hts
        simp only [PRes.ok.injEq, Prod.mk.injEq, true_and] at hts
        subst hts
        exact ⟨⟨e, rfl, by simp [TagDecoder.checkError]⟩, rfl⟩
      | ok value r2 =>
        rw [hval] at hts
        exact absurd hts (by simp)
  · unfold ListDecoder.next at hls
    rw [if_pos hl] at hls
    cases hval : decodeValue ld.reader with
    | panic => rw [hval] at hls; exact absurd hls (by simp)
    | error e r1 =>
      rw [hval] at hls
      simp only [PRes.ok.injEq, Prod.mk.injEq, true_and] at hls
      subst hls
      exact ⟨⟨e, rfl, by simp [ListDecoder.checkError]⟩, rfl⟩
    | ok value r1 =>
      rw [hval] at hls
      exact absurd hls (by simp)

/-- Witness for the amended C9: a failing tag step and a failing list step
at concrete iterator states. -/
theorem c9_error_latches_witness :
    ((∃ e, (some Error.InputExhausted : Option Error) = some e ∧
       TagDecoder.checkError ⟨2, ⟨[8, 253, 255, 4, 1], 3⟩, some .InputExhausted⟩ =
         .error e) ∧ (2 : Nat) = 2) ∧
    ((∃ e, (some Error.InvalidWireType : Option Error) = some e ∧
       ListDecoder.checkError ⟨1, ⟨[253], 1⟩, some .InvalidWireType⟩ =
         .error e) ∧ (1 : Nat) = 1) := by
  have hres := c9_error_latches
    ⟨2, ⟨[8, 253, 255, 4, 1], 1⟩, none⟩
    ⟨2, ⟨[8, 253, 255, 4, 1], 3⟩, some .InputExhausted⟩
    ⟨1, ⟨[253], 0⟩, none⟩
    ⟨1, ⟨[253], 1⟩, some .InvalidWireType⟩
    (by decide) (by decide) (by decide) (by decide)
  exact hres

/-! ### Lemmas: buffer-extension stability of successful decodes (for C8) -/

/-- A reader-threading decode step is stable under extending the buffer on
the right: a successful run over `B` (from a cursor within `B`) stays within
`B`, and the same run over `B ++ G` returns the same result at the same
cursor. -/
def ExtOk {α : Type} (f : Reader → DStep α) : Prop :=
  ∀ (B G : List Nat) (c : Nat) (a : α) (r' : Reader),
    f ⟨B, c⟩ = .ok a r' → c ≤ B.length →
      r'.buffer = B ∧ r'.cursor ≤ B.length ∧
      f ⟨B ++ G, c⟩ = .ok a ⟨B ++ G, r'.cursor⟩

theorem nextN_ext {B G s : List Nat} {c n : Nat} {r' : Reader}
    (h : Reader.nextN ⟨B, c⟩ n = some (s, r')) :
    r' = ⟨B, c + n⟩ ∧ c + n ≤ B.length ∧
      Reader.nextN ⟨B ++ G, c⟩ n = some (s, ⟨B ++ G, c + n⟩) := by
  by_cases hn : Reader.hasN ⟨B, c⟩ n = true
  · have hle : c + n ≤ B.length := by
      simpa [Reader.hasN] using hn
    rw [Reader.nextN, Reader.peekN, if_pos hn] at h
    have h' : (some ((B.drop c).take n, (⟨B, c + n⟩ : Reader)) :
        Option (List Nat × Reader)) = some (s, r') := h
    have hs : s = (B.drop c).take n ∧ r' = ⟨B, c + n⟩ := by
      injection h' with h1
      injection h1 with h2 h3
      exact ⟨h2.symm, h3.symm⟩
    obtain ⟨rfl, rfl⟩ := hs
    have hn2 : Reader.hasN ⟨B ++ G, c⟩ n = true := by
      simp only [Reader.hasN, List.length_append, decide_eq_true_eq]
      omega
    have hslice : ((B ++ G).drop c).take n = (B.drop c).take n := by
      rw [List.drop_append_of_le_length (by omega : c ≤ B.length),
          List.take_append_of_le_length (by rw [List.length_drop]; omega)]
    refine ⟨rfl, hle, ?_⟩
    rw [Reader.nextN, Reader.peekN, if_pos hn2]
    simp [hslice]
  · rw [Reader.nextN, Reader.peekN, if_neg hn] at h
    simp at h

theorem extOk_pure {α : Type} (a : α) : ExtOk (fun r => .ok a r) := by
  intro B G c b r' h hc
  have h' : (DStep.ok a ⟨B, c⟩ : DStep α) = .ok b r' := h
  injection h' with h1 h2
  subst h1
  subst h2
  exact ⟨rfl, hc, rfl⟩

theorem extOk_dbind {α β : Type} {f : Reader → DStep α} {g : α → Reader → DStep β}
    (hf : ExtOk f) (hg : ∀ a, ExtOk (g a)) :
    ExtOk (fun r => dbind (f r) g) := by
  intro B G c b r' h hc
  have h' : dbind (f ⟨B, c⟩) g = .ok b r' := h
  clear h
  cases hmid : f ⟨B, c⟩ with
  | panic => rw [hmid] at h'; simp [dbind] at h'
  | error e r1 => rw [hmid] at h'; simp [dbind] at h'
  | ok a r1 =>
    rw [hmid] at h'
    simp only [dbind] at h'
    obtain ⟨hbuf, hcur, hext⟩ := hf B G c a r1 hmid hc
    have hr1 : r1 = ⟨B, r1.cursor⟩ := by
      cases r1
      simp only at hbuf
      rw [hbuf]
    rw [hr1] at h'
    obtain ⟨hbuf2, hcur2, hext2⟩ := hg a B G r1.cursor b r' h' hcur
    refine ⟨hbuf2, hcur2, ?_⟩
    show dbind (f ⟨B ++ G, c⟩) g = .ok b ⟨B ++ G, r'.cursor⟩
    rw [hext]
    simpa [dbind] using hext2

theorem nextULE_ext {B G : List Nat} {c n v : Nat} {r' : Reader}
    (h : Reader.nextULE ⟨B, c⟩ n = some (v, r')) :
    r' = ⟨B, c + n⟩ ∧ c + n ≤ B.length ∧
      Reader.nextULE ⟨B ++ G, c⟩ n = some (v, ⟨B ++ G, c + n⟩) := by
  rw [Reader.nextULE] at h
  cases hn : Reader.nextN ⟨B, c⟩ n with
  | none => rw [hn] at h; simp at h
  | some p =>
    obtain ⟨s, r1⟩ := p
    rw [hn] at h
    have h' : (some (fromLE s, r1) : Option (Nat × Reader)) = some (v, r') := h
    have hs : v = fromLE s ∧ r' = r1 := by
      injection h' with h1
      injection h1 with h2 h3
      exact ⟨h2.symm, h3.symm⟩
    obtain ⟨rfl, rfl⟩ := hs
    obtain ⟨hr, hle, hext⟩ := nextN_ext (G := G) hn
    subst hr
    refine ⟨rfl, hle, ?_⟩
    rw [Reader.nextULE, hext]
    rfl

theorem extOk_readULE (k : Nat) : ExtOk (readULE k) := by
  intro B G c a r' h hc
  unfold readULE at h
  cases hn : Reader.nextULE ⟨B, c⟩ k with
  | none => rw [hn] at h; simp at h
  | some p =>
    obtain ⟨v, r1⟩ := p
    rw [hn] at h
    have h' : (DStep.ok v r1 : DStep Nat) = .ok a r' := h
    injection h' with h1 h2
    subst h1
    subst h2
    obtain ⟨hr, hle, hext⟩ := nextULE_ext (G := G) hn
    subst hr
    refine ⟨rfl, hle, ?_⟩
    unfold readULE
    rw [hext]

theorem extOk_readILE (k : Nat) : ExtOk (readILE k) := by
  intro B G c a r' h hc
  unfold readILE at h
  cases hn : Reader.nextN ⟨B, c⟩ k with
  | none => rw [hn] at h; simp at h
  | some p =>
    obtain ⟨s, r1⟩ := p
    rw [hn] at h
    have h' : (DStep.ok (intOfLE k s) r1 : DStep Int) = .ok a r' := h
    injection h' with h1 h2
    subst h1
    subst h2
    obtain ⟨hr, hle, hext⟩ := nextN_ext (G := G) hn
    subst hr
    refine ⟨rfl, hle, ?_⟩
    unfold readILE
    rw [hext]

theorem extOk_readRaw (k : Nat) : ExtOk (readRaw k) := by
  intro B G c a r' h hc
  unfold readRaw at h
  cases hn : Reader.nextN ⟨B, c⟩ k with
  | none => rw [hn] at h; simp at h
  | some p =>
    obtain ⟨s, r1⟩ := p
    rw [hn] at h
    have h' : (DStep.ok s r1 : DStep ByteSeq) = .ok a r' := h
    injection h' with h1 h2
    subst h1
    subst h2
    obtain ⟨hr, hle, hext⟩ := nextN_ext (G := G) hn
    subst hr
    refine ⟨rfl, hle, ?_⟩
    unfold readRaw
    rw [hext]

theorem decodeSize_ext {B G : List Nat} {c v : Nat} {r' : Reader}
    (h : decodeSize ⟨B, c⟩ = some (v, r')) (hc : c ≤ B.length) :
    r'.buffer = B ∧ r'.cursor ≤ B.length ∧
      decodeSize ⟨B ++ G, c⟩ = some (v, ⟨B ++ G, r'.cursor⟩) := by
  cases hpk : Reader.peek ⟨B, c⟩ 0 with
  | none => rw [decodeSize, hpk] at h; simp at h
  | some first =>
    have hpk2 : Reader.peek ⟨B ++ G, c⟩ 0 = some first := by
      have hcb : c < B.length := by
        by_contra hcon
        have hnone : Reader.peek ⟨B, c⟩ 0 = none := by
          rw [Reader.peek]
          exact List.getElem?_eq_none (by simp; omega)
        rw [hnone] at hpk
        cases hpk
      rw [Reader.peek] at hpk ⊢
      rw [List.getElem?_append_left (by omega : c + 0 < B.length)]
      exact hpk
    simp only [decodeSize, hpk] at h
    simp only [decodeSize, hpk2]
    cases hn : Reader.nextULE ⟨B, c⟩ (sizeClassLen first) with
    | none => rw [hn] at h; simp at h
    | some p =>
      obtain ⟨w, r1⟩ := p
      rw [hn] at h
      have hk' : (some (w >>> 2, r1) : Option (Nat × Reader)) = some (v, r') := h
      have hs : v = w >>> 2 ∧ r' = r1 := by
        injection hk' with h1
        injection h1 with h2 h3
        exact ⟨h2.symm, h3.symm⟩
      obtain ⟨rfl, rfl⟩ := hs
      obtain ⟨hr, hle, hext⟩ := nextULE_ext (G := G) hn
      subst hr
      refine ⟨rfl, hle, ?_⟩
      rw [hext]
      rfl

theorem extOk_decodeSizeD : ExtOk decodeSizeD := by
  intro B G c a r' h hc
  unfold decodeSizeD at h
  cases hds : decodeSize ⟨B, c⟩ with
  | none => rw [hds] at h; simp at h
  | some p =>
    obtain ⟨v, r1⟩ := p
    rw [hds] at h
    have h' : (DStep.ok v r1 : DStep Nat) = .ok a r' := h
    injection h' with h1 h2
    subst h1
    subst h2
    obtain ⟨hbuf, hcur, hext⟩ := decodeSize_ext (G := G) hds hc
    refine ⟨hbuf, hcur, ?_⟩
    unfold decodeSizeD
    rw [hext]

theorem extOk_decodeSizeAsUsize : ExtOk decodeSizeAsUsize := by
  have hres := extOk_dbind extOk_decodeSizeD
    (g := fun v r1 => match u64ToUsize v with
      | some u => DStep.ok u r1
      | none => .error .SizeTooLarge r1)
    (fun v => extOk_pure v)
  exact hres

theorem extOk_decodeVarBytes : ExtOk decodeVarBytes := by
  have hres := extOk_dbind extOk_decodeSizeAsUsize
    (g := fun size r1 => match r1.nextN size with
      | some (s, r2) => DStep.ok s r2
      | none => .error .InputExhausted r1)
    (fun size => extOk_readRaw size)
  exact hres

theorem extOk_readTags (b : Bool) : ExtOk (readTags b) := by
  cases b with
  | true => exact extOk_decodeVarBytes
  | false => exact extOk_pure []

theorem extOk_decodePayload (ty : WireType) : ExtOk (decodePayload ty) := by
  cases ty with
  | Null => exact extOk_pure Payload.Null
  | BoolFalse => exact extOk_pure (Payload.Bool false)
  | BoolTrue => exact extOk_pure (Payload.Bool true)
  | Nat8 => exact extOk_dbind (extOk_readULE 1) (fun v => extOk_pure (Payload.Nat8 v))
  | Nat16 => exact extOk_dbind (extOk_readULE 2) (fun v => extOk_pure (Payload.Nat16 v))
  | Nat32 => exact extOk_dbind (extOk_readULE 4) (fun v => extOk_pure (Payload.Nat32 v))
  | Nat64 => exact extOk_dbind (extOk_readULE 8) (fun v => extOk_pure (Payload.Nat64 v))
  | Int8 => exact extOk_dbind (extOk_readILE 1) (fun v => extOk_pure (Payload.Int8 v))
  | Int16 => exact extOk_dbind (extOk_readILE 2) (fun v => extOk_pure (Payload.Int16 v))
  | Int32 => exact extOk_dbind (extOk_readILE 4) (fun v => extOk_pure (Payload.Int32 v))
  | Int64 => exact extOk_dbind (extOk_readILE 8) (fun v => extOk_pure (Payload.Int64 v))
  | Float32 => exact extOk_dbind (extOk_readRaw 4) (fun s => extOk_pure (Payload.Float32 s))
  | Float64 => exact extOk_dbind (extOk_readRaw 8) (fun s => extOk_pure (Payload.Float64 s))
  | Decimal32 => exact extOk_dbind (extOk_readRaw 4) (fun s => extOk_pure (Payload.Decimal32 s))
  | Decimal64 => exact extOk_dbind (extOk_readRaw 8) (fun s => extOk_pure (Payload.Decimal64 s))
  | Nat => exact extOk_dbind extOk_decodeVarBytes (fun s => extOk_pure (Payload.Nat s))
  | Int => exact extOk_dbind extOk_decodeVarBytes (fun s => extOk_pure (Payload.Int s))
  | Bytes => exact extOk_dbind extOk_decodeVarBytes (fun s => extOk_pure (Payload.Bytes s))
  | Symbol => exact extOk_dbind extOk_decodeVarBytes (fun s => extOk_pure (Payload.Symbol s))
  | List => exact extOk_dbind extOk_decodeVarBytes (fun s => extOk_pure (Payload.List s))
  | String =>
    refine extOk_dbind extOk_decodeVarBytes (fun s => ?_)
    intro B G c a r' h hc
    by_cases hu : isValidUtf8 s = true
    · have hbeta : (if isValidUtf8 s = true
          then DStep.ok (Payload.String s) (⟨B, c⟩ : Reader)
          else .error .StringInvalidUtf8 ⟨B, c⟩) = .ok a r' := h
      rw [if_pos hu] at hbeta
      injection hbeta with h1 h2
      subst h1
      subst h2
      refine ⟨rfl, hc, ?_⟩
      show (if isValidUtf8 s = true
          then DStep.ok (Payload.String s) (⟨B ++ G, c⟩ : Reader)
          else .error .StringInvalidUtf8 ⟨B ++ G, c⟩) = .ok (Payload.String s) ⟨B ++ G, c⟩
      rw [if_pos hu]
    · have hbeta : (if isValidUtf8 s = true
          then DStep.ok (Payload.String s) (⟨B, c⟩ : Reader)
          else .error .StringInvalidUtf8 ⟨B, c⟩) = .ok a r' := h
      rw [if_neg hu] at hbeta
      cases hbeta

theorem extOk_decodeValueBody (tbl : Nat → Option WireType) (header : Nat) :
    ExtOk (decodeValueBody tbl header) := by
  intro B G c a r' h hc
  unfold decodeValueBody at h ⊢
  cases htb : tbl (header &&& wireTypeMask) with
  | none =>
    rw [htb] at h
    simp at h
  | some ty =>
    try simp only [htb] at h
    try simp only [htb]
    try dsimp only at h
    try dsimp only
    cases hkd : decide (header &&& wireFlagKind ≠ 0) with
    | true =>
      try simp only [hkd] at h
      simp at h
    | false =>
      try simp only [hkd] at h
      try simp only [hkd]
      try dsimp only at h
      try dsimp only
      have hrest : ExtOk (fun r1 =>
          dbind (readTags (decide (header &&& wireFlagTags ≠ 0)) r1) fun tags r2 =>
            dbind (decodePayload ty r2) fun payload r3 =>
              DStep.ok (Value.mk ty false (decide (header &&& wireFlagTags ≠ 0))
                [] tags payload) r3) :=
        extOk_dbind (extOk_readTags _) (fun tags =>
          extOk_dbind (extOk_decodePayload ty) (fun payload =>
            extOk_pure (Value.mk ty false (decide (header &&& wireFlagTags ≠ 0))
              [] tags payload)))
      exact hrest B G c a r' h hc

theorem extOk_decodeValueT (tbl : Nat → Option WireType) :
    ExtOk (decodeValueT tbl) :=
  extOk_dbind (extOk_readULE 1) (extOk_decodeValueBody tbl)

theorem extOk_decodeValue : ExtOk decodeValue :=
  extOk_decodeValueT wireTypeOfByte

theorem validate_ok_elim {B : List Nat} (h : validate B = .ok ()) :
    ∃ v r', decodeValue (Reader.new B) = .ok v r' ∧
      validateValue (vfuel v) v = .ok () ∧ r'.hasSome = false := by
  unfold validate at h
  cases hdv : decodeValue (Reader.new B) with
  | panic => try simp only [hdv] at h
             simp at h
  | error e r => try simp only [hdv] at h
                 simp at h
  | ok v r =>
    try simp only [hdv] at h
    cases hvv : validateValue (vfuel v) v with
    | panic => try simp only [hvv] at h
               simp at h
    | error e => try simp only [hvv] at h
                 simp at h
    | ok u =>
      cases u
      try simp only [hvv] at h
      refine ⟨v, r, rfl, hvv, ?_⟩
      by_cases hs : r.hasSome = true
      · rw [if_pos hs] at h
        cases h
      · simpa using hs

/-! ### Claim theorems: validation and trailing data (C8) -/

/-- C8: appending any non-empty garbage suffix to a buffer that validates
makes `validate` fail with `TrailingData`; and `validate` returns `Ok` only
when the top-level `decode_value` consumed the entire buffer (its cursor
ends exactly at the buffer length). -/
theorem c8_validate_trailing (B G : List Nat) (hok : validate B = .ok ()) :
    (G ≠ [] → validate (B ++ G) = .error .TrailingData) ∧
    (∃ v, decodeValue (Reader.new B) = .ok v ⟨B, B.length⟩) := by
  obtain ⟨v, r', hdv, hvv, hns⟩ := validate_ok_elim hok
  obtain ⟨hbuf, hcur, hext⟩ :=
    extOk_decodeValue B G 0 v r' hdv (Nat.zero_le _)
  have hcend : r'.cursor = B.length := by
    rw [Reader.hasSome, hbuf] at hns
    simp only [decide_eq_false_iff_not, not_lt] at hns
    omega
  constructor
  · intro hG
    have hGlen : 0 < G.length := List.length_pos.mpr hG
    unfold validate
    have hdv2 : decodeValue (Reader.new (B ++ G)) = .ok v ⟨B ++ G, r'.cursor⟩ := hext
    rw [hdv2]
    dsimp only
    rw [hvv]
    dsimp only
    have hsome : Reader.hasSome ⟨B ++ G, r'.cursor⟩ = true := by
      simp only [Reader.hasSome, List.length_append, decide_eq_true_eq]
      omega
    rw [if_pos hsome]
  · refine ⟨v, ?_⟩
    have hr : r' = ⟨B, B.length⟩ := by
      cases r'
      simp only at hbuf hcend
      rw [hbuf, hcend]
    rw [← hr]
    exact hdv

/-- Witness for C8 with `B = [0x01]` (a `Null` root) and garbage `[0x00]`. -/
theorem c8_validate_trailing_witness :
    validate [1] = .ok () ∧
    validate ([1] ++ [0]) = .error .TrailingData ∧
    (∃ v, decodeValue (Reader.new [1]) = .ok v ⟨[1], List.length [1]⟩) := by
  have hok : validate [1] = .ok () := by decide
  have hres := c8_validate_trailing [1] [0] hok
  exact ⟨hok, hres.1 (by decide), hres.2⟩

/-! ### Lemmas: encoded-size bookkeeping and ghost-structure algebra -/

theorem encodeSize_eq_enc {v l : Nat} {b8 : List Nat}
    (h : encodeSize v = some (b8, l)) : b8 = encBytes v ∧ l = encLen v := by
  constructor <;> simp [encBytes, encLen, h]

theorem encodeSize_lt_62 {v : Nat} {p : List Nat × Nat}
    (h : encodeSize v = some p) : v < 2 ^ 62 := by
  by_contra hc
  rw [encodeSize_none (by omega)] at h
  cases h

theorem encodeSize_of_lt {v : Nat} (h : v < 2 ^ 62) :
    encodeSize v = some (encBytes v, encLen v) := by
  cases he : encodeSize v with
  | some p =>
    obtain ⟨b8, l⟩ := p
    obtain ⟨h1, h2⟩ := encodeSize_eq_enc he
    rw [h1, h2]
  | none =>
    exfalso
    have hb : u64Bits v ≤ 62 :=
      (u64Bits_le_iff (m := 62) (lt_trans h (by norm_num)) (by norm_num)).mpr h
    simp only [encodeSize] at he
    split_ifs at he with h1 h2 h3 h4

theorem encLen_bounds {v : Nat} (h : v < 2 ^ 62) :
    1 ≤ encLen v ∧ encLen v ≤ 8 ∧ (encBytes v).length = 8 := by
  obtain ⟨_, hlen, h1, h8⟩ := encodeSize_len_le8 (encodeSize_of_lt h)
  exact ⟨h1, h8, hlen⟩

theorem varTake_length (S : Nat) :
    ((encBytes S).take (encLen S)).length = encLen S := by
  by_cases h : S < 2 ^ 62
  · obtain ⟨h1, h8, hL⟩ := encLen_bounds h
    rw [List.length_take, hL]
    omega
  · have hn : encodeSize S = none := encodeSize_none (by omega)
    simp [encBytes, encLen, hn]

theorem blockLen {W S : Nat} (hW : W ≤ 8) (hS : S < 2 ^ 62) :
    ((encBytes S).take W).length = W := by
  obtain ⟨_, _, hL⟩ := encLen_bounds hS
  rw [List.length_take, hL]
  omega

theorem flatI_append (W : Nat) (xs ys : List Item) :
    flatI W (xs ++ ys) = flatI W xs ++ flatI W ys := by
  induction xs with
  | nil => simp [flatI]
  | cons it rest ih => simp [flatI, ih, List.append_assoc]

theorem clenI_append (W : Nat) (xs ys : List Item) :
    clenI W (xs ++ ys) = clenI W xs + clenI W ys := by
  induction xs with
  | nil => simp [clenI]
  | cons it rest ih => simp [clenI, ih]; omega

theorem phS_append (xs ys : List Item) :
    phS (xs ++ ys) = phS xs ++ phS ys := by
  induction xs with
  | nil => simp [phS]
  | cons it rest ih => cases it <;> simp [phS, ih]

theorem flatI_length_ph (W : Nat) (S : Nat) (hW : W ≤ 8) (hS : S < 2 ^ 62) :
    (Item.bytes W (Item.ph S)).length = W := by
  simp only [Item.bytes]
  exact blockLen hW hS

theorem phPosI_append (W : Nat) (hW : W ≤ 8) :
    ∀ (xs ys : List Item) (start : Nat),
      (∀ S ∈ phS xs, S < 2 ^ 62) →
      phPosI W start (xs ++ ys) =
        phPosI W start xs ++ phPosI W (start + (flatI W xs).length) ys := by
  intro xs
  induction xs with
  | nil => intro ys start _; simp [phPosI, flatI]
  | cons it rest ih =>
    intro ys start hlt
    cases it with
    | chunk bs =>
      have hrest : ∀ S ∈ phS rest, S < 2 ^ 62 := by
        intro S hS
        exact hlt S (by simpa [phS] using hS)
      simp only [List.cons_append, phPosI, flatI, Item.bytes, List.append_eq]
      rw [ih ys (start + bs.length) hrest]
      have harith : start + bs.length + (flatI W rest).length =
          start + (bs ++ flatI W rest).length := by
        simp [List.length_append]
        omega
      rw [harith]
    | ph S =>
      have hS : S < 2 ^ 62 := hlt S (by simp [phS])
      have hrest : ∀ T ∈ phS rest, T < 2 ^ 62 := by
        intro T hT
        exact hlt T (by simp [phS, hT])
      simp only [List.cons_append, phPosI, flatI, List.append_eq]
      rw [ih ys (start + W) hrest]
      have harith : start + W + (flatI W rest).length =
          start + (Item.bytes W (Item.ph S) ++ flatI W rest).length := by
        rw [List.length_append, flatI_length_ph W S hW hS]
        omega
      rw [harith]

theorem flatI_lead_seg (W : Nat) :
    ∀ items : List Item,
      flatI W items = leadBytes items ++ segFlat W (segsOf items) := by
  intro items
  induction items with
  | nil => simp [flatI, leadBytes, segsOf, segFlat]
  | cons it rest ih =>
    cases it with
    | chunk bs => simp [flatI, leadBytes, segsOf, Item.bytes, ih, List.append_assoc]
    | ph S => simp [flatI, leadBytes, segsOf, segFlat, Item.bytes, ih]

theorem clenI_lead_seg (W : Nat) :
    ∀ items : List Item,
      clenI W items = (leadBytes items).length + (segOut (segsOf items)).length := by
  intro items
  induction items with
  | nil => simp [clenI, leadBytes, segsOf, segOut]
  | cons it rest ih =>
    cases it with
    | chunk bs =>
      simp only [clenI, leadBytes, segsOf, Item.clen, List.length_append, ih]
      omega
    | ph S =>
      simp only [clenI, leadBytes, segsOf, segOut, Item.clen, List.length_nil,
        List.length_append, ih, varTake_length]
      omega

theorem deltas_phPosI (W : Nat) :
    ∀ (items : List Item) (start last : Nat), last ≤ start →
      deltasFrom last (phPosI W start items) =
        segDeltas W ((start - last) + (leadBytes items).length) (segsOf items) := by
  intro items
  induction items with
  | nil => intro start last _; simp [phPosI, deltasFrom, segsOf, segDeltas]
  | cons it rest ih =>
    intro start last hle
    cases it with
    | chunk bs =>
      simp only [phPosI, leadBytes, segsOf, List.length_append]
      rw [ih (start + bs.length) last (by omega)]
      have harith : start + bs.length - last + (leadBytes rest).length =
          start - last + (bs.length + (leadBytes rest).length) := by omega
      rw [harith]
    | ph S =>
      simp only [phPosI, deltasFrom, leadBytes, segsOf, segDeltas, List.length_nil]
      rw [Nat.add_zero]
      congr 1
      rw [ih (start + W) start (by omega)]
      have harith : start + W - start + (leadBytes rest).length =
          (leadBytes rest).length + W := by omega
      rw [harith]

theorem deltasFrom_append_last (p : Nat) :
    ∀ (ps : List Nat) (l : Nat),
      deltasFrom l (ps ++ [p]) =
        deltasFrom l ps ++ [p - (ps.getLast?.getD l)] := by
  intro ps
  induction ps with
  | nil => intro l; simp [deltasFrom]
  | cons q rest ih =>
    intro l
    simp only [List.cons_append, deltasFrom, List.append_eq]
    rw [ih q]
    congr 1
    cases rest with
    | nil => simp
    | cons a b =>
      have hx : ∃ x, (a :: b).getLast? = some x := by
        cases hlast : (a :: b).getLast? with
        | some x => exact ⟨x, rfl⟩
        | none => simp at hlast
      obtain ⟨x, hx⟩ := hx
      rw [hx, List.getLast?_cons_cons, hx]
      simp [Option.getD]

theorem varcat_append (xs ys : List Nat) :
    varcat (xs ++ ys) = varcat xs ++ varcat ys := by
  induction xs with
  | nil => simp [varcat]
  | cons d rest ih => simp [varcat, ih, List.append_assoc]

theorem segOut_cons_length (S : Nat) (g : List Nat) (rest : List (Nat × List Nat)) :
    (segOut ((S, g) :: rest)).length =
      encLen S + g.length + (segOut rest).length := by
  simp only [segOut, List.length_append, varTake_length]

/-! ### Lemmas: the compaction loop -/

theorem hasSome_true {buf : List Nat} {c : Nat} (h : c < buf.length) :
    Reader.hasSome ⟨buf, c⟩ = true := by
  simp [Reader.hasSome]
  omega

theorem hasSome_false {buf : List Nat} {c : Nat} (h : buf.length ≤ c) :
    Reader.hasSome ⟨buf, c⟩ = false := by
  simp [Reader.hasSome]
  omega

theorem rest_at_eq (pre post : List Nat) {buf : List Nat} {c : Nat}
    (hbuf : buf = pre ++ post) (hc : c = pre.length) :
    Reader.rest ⟨buf, c⟩ = post := by
  subst hbuf
  subst hc
  exact List.drop_left pre post

theorem nextN_at_eq (pre mid post : List Nat) {buf : List Nat} {c n : Nat}
    (hbuf : buf = pre ++ (mid ++ post)) (hc : c = pre.length)
    (hn : n = mid.length) :
    Reader.nextN ⟨buf, c⟩ n = some (mid, ⟨buf, c + n⟩) := by
  subst hbuf
  subst hc
  subst hn
  exact nextN_append pre mid post

theorem peekN_at_eq (pre mid post : List Nat) {buf : List Nat} {c n : Nat}
    (hbuf : buf = pre ++ (mid ++ post)) (hc : c = pre.length)
    (hn : n = mid.length) :
    Reader.peekN ⟨buf, c⟩ n = some mid := by
  subst hbuf
  subst hc
  subst hn
  have hasn : Reader.hasN ⟨pre ++ (mid ++ post), pre.length⟩ mid.length = true := by
    simp only [Reader.hasN, List.length_append, decide_eq_true_eq]
    omega
  have hdrop : (pre ++ (mid ++ post)).drop pre.length = mid ++ post :=
    List.drop_left pre (mid ++ post)
  have htake : (mid ++ post).take mid.length = mid := List.take_left mid post
  simp [Reader.peekN, hasn, hdrop, htake]

theorem decodeSize_at_eq (pre post : List Nat) {buf : List Nat} {c v : Nat}
    (hv : v < 2 ^ 62)
    (hbuf : buf = pre ++ ((encBytes v).take (encLen v) ++ post))
    (hc : c = pre.length) :
    decodeSize ⟨buf, c⟩ = some (v, ⟨buf, c + encLen v⟩) := by
  subst hbuf
  subst hc
  exact decodeSize_encodeSize (encodeSize_of_lt hv) pre post

theorem compressLoop_spec (W : Nat) (hW1 : 1 ≤ W) (hW8 : W ≤ 8) :
    ∀ (segs : List (Nat × List Nat)) (fuel : Nat) (g0 pre osPre dest : List Nat)
      (first : Bool),
      (∀ p ∈ segs, p.1 < 2 ^ 62 ∧ encLen p.1 ≤ W) →
      (∀ d ∈ segDeltas W (g0.length + if first then 0 else W) segs, d < 2 ^ 62) →
      segs.length + 1 ≤ fuel →
      compressLoop W fuel
        ⟨pre ++ (g0 ++ segFlat W segs), pre.length⟩
        ⟨osPre ++ varcat (segDeltas W (g0.length + if first then 0 else W) segs),
          osPre.length⟩
        first dest
      = .ok (dest ++ (g0 ++ segOut segs)) := by
  intro segs
  induction segs with
  | nil =>
    intro fuel g0 pre osPre dest first hseg hd hfuel
    obtain ⟨f, rfl⟩ : ∃ f, fuel = f + 1 := ⟨fuel - 1, by omega⟩
    simp only [segDeltas, varcat, segFlat, segOut, List.append_nil]
    by_cases hg : g0 = []
    · subst hg
      simp only [List.append_nil]
      have hs : Reader.hasSome ⟨pre, pre.length⟩ = false :=
        hasSome_false (le_refl _)
      simp only [compressLoop, hs, Bool.false_eq_true, if_false]
    · have hs : Reader.hasSome ⟨pre ++ g0, pre.length⟩ = true :=
        hasSome_true (by
          simp only [List.length_append]
          have : 0 < g0.length := List.length_pos.mpr hg
          omega)
      have hos : Reader.hasSome ⟨osPre, osPre.length⟩ = false :=
        hasSome_false (le_refl _)
      have hrest : Reader.rest ⟨pre ++ g0, pre.length⟩ = g0 :=
        rest_at_eq pre g0 rfl rfl
      simp only [compressLoop, hs, hos, Bool.false_eq_true, if_true, if_false, hrest]
  | cons sg rest ih =>
    obtain ⟨S, g⟩ := sg
    intro fuel g0 pre osPre dest first hseg hd hfuel
    obtain ⟨f, rfl⟩ : ∃ f, fuel = f + 1 := ⟨fuel - 1, by omega⟩
    have hSm := hseg (S, g) (by simp)
    dsimp only at hSm
    obtain ⟨hS62, hSW⟩ := hSm
    obtain ⟨hS1, hS8, hSbl⟩ := encLen_bounds hS62
    have hd0 : (g0.length + if first then 0 else W) < 2 ^ 62 :=
      hd _ (by simp [segDeltas])
    obtain ⟨hd1, hd8, hdbl⟩ := encLen_bounds hd0
    -- abbreviations
    have hblockLen : ((encBytes S).take W).length = W := blockLen hW8 hS62
    have hvSLen : ((encBytes S).take (encLen S)).length = encLen S := varTake_length S
    have hvdLen : ((encBytes (g0.length + if first then 0 else W)).take
        (encLen (g0.length + if first then 0 else W))).length =
        encLen (g0.length + if first then 0 else W) := varTake_length _
    -- the buffer reader has bytes (the placeholder block is present)
    have hsb : Reader.hasSome
        ⟨pre ++ (g0 ++ segFlat W ((S, g) :: rest)), pre.length⟩ = true := by
      apply hasSome_true
      simp only [segFlat, List.length_append, hblockLen]
      omega
    -- the offsets reader has bytes (the delta varint is nonempty)
    have hso : Reader.hasSome
        ⟨osPre ++ varcat (segDeltas W (g0.length + if first then 0 else W)
          ((S, g) :: rest)), osPre.length⟩ = true := by
      apply hasSome_true
      simp only [segDeltas, varcat, List.length_append, hvdLen]
      omega
    -- decode the next delta from the offsets stream
    have hdec : decodeSize
        ⟨osPre ++ varcat (segDeltas W (g0.length + if first then 0 else W)
          ((S, g) :: rest)), osPre.length⟩ =
        some (g0.length + if first then 0 else W,
          ⟨osPre ++ varcat (segDeltas W (g0.length + if first then 0 else W)
            ((S, g) :: rest)),
           osPre.length + encLen (g0.length + if first then 0 else W)⟩) := by
      apply decodeSize_at_eq osPre
        (varcat (segDeltas W (g.length + W) rest)) hd0
      · simp [segDeltas, varcat]
      · rfl
    -- the computed gap is exactly the leading chunk length
    have hgap : (if first then g0.length + if first then 0 else W
        else (g0.length + if first then 0 else W) - W) = g0.length := by
      cases first <;> simp
    -- read the leading chunk
    have hchunk : Reader.nextN
        ⟨pre ++ (g0 ++ segFlat W ((S, g) :: rest)), pre.length⟩ g0.length =
        some (g0, ⟨pre ++ (g0 ++ segFlat W ((S, g) :: rest)),
          pre.length + g0.length⟩) :=
      nextN_at_eq pre g0 (segFlat W ((S, g) :: rest)) rfl rfl rfl
    -- the varint peek at the placeholder
    have hpeekSz : peekDecodeSize
        ⟨pre ++ (g0 ++ segFlat W ((S, g) :: rest)), pre.length + g0.length⟩ =
        some (S, encLen S) := by
      rw [peekDecodeSize]
      have hds : decodeSize
          ⟨pre ++ (g0 ++ segFlat W ((S, g) :: rest)), pre.length + g0.length⟩ =
          some (S, ⟨pre ++ (g0 ++ segFlat W ((S, g) :: rest)),
            pre.length + g0.length + encLen S⟩) := by
        apply decodeSize_at_eq (pre ++ g0)
          (((encBytes S).drop (encLen S)).take (W - encLen S) ++
            (g ++ segFlat W rest)) hS62
        · simp only [segFlat]
          have htk : (encBytes S).take W =
              (encBytes S).take (encLen S) ++
                ((encBytes S).drop (encLen S)).take (W - encLen S) := by
            rw [← List.take_add]
            congr 1
            omega
          rw [htk]
          simp [List.append_assoc]
        · simp [List.length_append]
      rw [hds]
      simp
    -- the varint bytes themselves
    have hpeekN : Reader.peekN
        ⟨pre ++ (g0 ++ segFlat W ((S, g) :: rest)), pre.length + g0.length⟩
        (encLen S) =
        some ((encBytes S).take (encLen S)) := by
      apply peekN_at_eq (pre ++ g0) ((encBytes S).take (encLen S))
        (((encBytes S).drop (encLen S)).take (W - encLen S) ++ (g ++ segFlat W rest))
      · simp only [segFlat]
        have htk : (encBytes S).take W =
            (encBytes S).take (encLen S) ++
              ((encBytes S).drop (encLen S)).take (W - encLen S) := by
          rw [← List.take_add]
          congr 1
          omega
        rw [htk]
        simp [List.append_assoc]
      · simp [List.length_append]
      · rw [hvSLen]
    -- skip the whole placeholder block
    have hskip : Reader.nextN
        ⟨pre ++ (g0 ++ segFlat W ((S, g) :: rest)), pre.length + g0.length⟩ W =
        some ((encBytes S).take W,
          ⟨pre ++ (g0 ++ segFlat W ((S, g) :: rest)),
            pre.length + g0.length + W⟩) := by
      apply nextN_at_eq (pre ++ g0) ((encBytes S).take W) (g ++ segFlat W rest)
      · simp [segFlat, List.append_assoc]
      · simp [List.length_append]
      · rw [hblockLen]
    -- one unfolding of the loop
    simp only [compressLoop, hsb, hso, if_true, hdec, hgap, hchunk, hpeekSz,
      hpeekN, hskip]
    -- the recursive call, re-parenthesized for the induction hypothesis
    have harg1 : pre ++ (g0 ++ segFlat W ((S, g) :: rest)) =
        (pre ++ g0 ++ (encBytes S).take W) ++ (g ++ segFlat W rest) := by
      simp [segFlat, List.append_assoc]
    have harg1c : pre.length + g0.length + W =
        (pre ++ g0 ++ (encBytes S).take W).length := by
      simp only [List.length_append, hblockLen]
    have harg2 : osPre ++ varcat (segDeltas W (g0.length + if first then 0 else W)
        ((S, g) :: rest)) =
        (osPre ++ (encBytes (g0.length + if first then 0 else W)).take
          (encLen (g0.length + if first then 0 else W))) ++
          varcat (segDeltas W (g.length + W) rest) := by
      simp [segDeltas, varcat, List.append_assoc]
    have harg2c : osPre.length + encLen (g0.length + if first then 0 else W) =
        (osPre ++ (encBytes (g0.length + if first then 0 else W)).take
          (encLen (g0.length + if first then 0 else W))).length := by
      simp only [List.length_append, hvdLen]
    rw [harg1, harg1c, harg2, harg2c]
    have hrec := ih f g
      (pre ++ g0 ++ (encBytes S).take W)
      (osPre ++ (encBytes (g0.length + if first then 0 else W)).take
        (encLen (g0.length + if first then 0 else W)))
      (dest ++ g0 ++ (encBytes S).take (encLen S))
      false
      (fun p hp => hseg p (by simp [hp]))
      (by
        intro d hdm
        apply hd
        simp only [segDeltas, if_false]
        simp only [List.mem_cons]
        right
        simpa using hdm)
      (by simp at hfuel ⊢; omega)
    have hfix : (g.length + if false = true then 0 else W) = g.length + W := by
      norm_num
    rw [hfix] at hrec
    rw [hrec]
    simp [segOut, List.append_assoc]

/-! ### Lemmas: preservation of the encoder ghost invariant -/

theorem qposT_cons_ne_nil (W : Nat) (g : List Item) (rest : List (List Item)) :
    qposT W (g :: rest) ≠ [] := by
  cases rest <;> simp [qposT]

theorem stackFlatT_top {W : Nat} {g g' : List Item} {bs : List Nat}
    (rest : List (List Item)) (h : flatI W g' = flatI W g ++ bs) :
    stackFlatT W (g' :: rest) = stackFlatT W (g :: rest) ++ bs := by
  cases rest <;> simp [stackFlatT, h, List.append_assoc]

theorem qposT_top (W : Nat) (g g' : List Item) (rest : List (List Item)) :
    qposT W (g' :: rest) = qposT W (g :: rest) := by
  cases rest <;> simp [qposT]

theorem stackPosT_top {W : Nat} {g g' : List Item} (rest : List (List Item))
    (hph : ∀ b, phPosI W b g' = phPosI W b g) :
    stackPosT W (g' :: rest) = stackPosT W (g :: rest) := by
  cases rest <;> simp [stackPosT, hph]

theorem encInv_append (e : Encoder) (g : List Item) (rest : List (List Item))
    (bs : List Nat) (hinv : EncInv e (g :: rest)) :
    ∃ e', e.append bs = .ok e' ∧
      EncInv e' ((g ++ [Item.chunk bs]) :: rest) := by
  obtain ⟨hc, hWmem, hne, hbuf, hoff, hsz, hso, hlast, hdlt, hph, hov⟩ := hinv
  have hW8 : e.sizeMaxBytes ≤ 8 := by rcases hWmem with h | h | h | h <;> omega
  have hphg : ∀ S ∈ phS g, S < 2 ^ 62 := by
    intro S hS
    exact hph S (by simp [allPhS, hS])
  cases hszr : e.sizers with
  | nil =>
    exfalso
    rw [hszr] at hoff
    exact qposT_cons_ne_nil e.sizeMaxBytes g rest (by simpa using hoff.symm)
  | cons s0 srest =>
  rw [hszr] at hoff hsz
  have hflat : flatI e.sizeMaxBytes (g ++ [Item.chunk bs]) =
      flatI e.sizeMaxBytes g ++ bs := by
    rw [flatI_append]
    simp [flatI, Item.bytes]
  have hph2 : ∀ b, phPosI e.sizeMaxBytes b (g ++ [Item.chunk bs]) =
      phPosI e.sizeMaxBytes b g := by
    intro b
    rw [phPosI_append e.sizeMaxBytes hW8 g [Item.chunk bs] b hphg]
    simp [phPosI]
  have hphS2 : phS (g ++ [Item.chunk bs]) = phS g := by
    rw [phS_append]
    simp [phS]
  refine ⟨{ e with
              buffer := e.buffer ++ bs,
              sizers := ⟨s0.offset, s0.size + bs.length⟩ :: srest }, ?_, ?_⟩
  · rw [Encoder.append, Encoder.commitSize]
    dsimp only
    rw [hszr]
  · refine ⟨hc, hWmem, by simp, ?_, ?_, ?_, ?_, ?_, ?_, ?_, ?_⟩
    · dsimp only
      rw [hbuf]
      exact (stackFlatT_top rest hflat).symm
    · dsimp only
      rw [qposT_top]
      simp only [List.map_cons] at hoff ⊢
      exact hoff
    · dsimp only
      simp only [List.map_cons, List.map] at hsz ⊢
      have h0 : s0.size = clenI e.sizeMaxBytes g := by
        injection hsz
      have h1 : srest.map Sizer.size = rest.map (clenI e.sizeMaxBytes) := by
        injection hsz
      rw [h0, h1, clenI_append]
      simp [clenI, Item.clen]
    · dsimp only
      rw [stackPosT_top rest hph2]
      exact hso
    · dsimp only
      rw [stackPosT_top rest hph2]
      exact hlast
    · dsimp only
      rw [stackPosT_top rest hph2]
      exact hdlt
    · dsimp only
      intro S hS
      apply hph
      simp only [allPhS, hphS2] at hS ⊢
      exact hS
    · dsimp only
      intro hovf S hS
      apply hov hovf
      simp only [allPhS, hphS2] at hS ⊢
      exact hS

theorem encInv_beginSize (e : Encoder) (g : List Item) (rest : List (List Item))
    (hinv : EncInv e (g :: rest))
    (hdelta : e.buffer.length - e.lastSizeOffset < 2 ^ 62) :
    ∃ e', e.beginSize = .ok e' ∧ EncInv e' ([] :: g :: rest) := by
  obtain ⟨hc, hWmem, hne, hbuf, hoff, hsz, hso, hlast, hdlt, hph, hov⟩ := hinv
  have hstep : e.beginSize = .ok { e with
      buffer := e.buffer ++ List.replicate e.sizeMaxBytes 0,
      sizers := ⟨e.buffer.length, 0⟩ :: e.sizers,
      sizeOffsets := e.sizeOffsets ++
        (encBytes (e.buffer.length - e.lastSizeOffset)).take
          (encLen (e.buffer.length - e.lastSizeOffset)),
      lastSizeOffset := e.buffer.length } := by
    rw [Encoder.beginSize]
    simp only [hc, if_true, encodeSize_of_lt hdelta]
  refine ⟨_, hstep, ?_⟩
  have hPnew : stackPosT e.sizeMaxBytes ([] :: g :: rest) =
      stackPosT e.sizeMaxBytes (g :: rest) ++
        [(stackFlatT e.sizeMaxBytes (g :: rest)).length] := by
    simp [stackPosT, phPosI]
  refine ⟨hc, hWmem, by simp, ?_, ?_, ?_, ?_, ?_, ?_, ?_, ?_⟩
  · dsimp only
    rw [hbuf]
    simp [stackFlatT, flatI]
  · dsimp only
    simp only [List.map_cons]
    rw [hoff, hbuf]
    simp [qposT]
  · dsimp only
    simp only [List.map_cons]
    rw [hsz]
    simp [clenI]
  · dsimp only
    rw [hPnew, deltasFrom_append_last, varcat_append, hso, hlast, hbuf]
    simp [varcat]
  · dsimp only
    rw [hPnew, hbuf]
    simp
  · dsimp only
    rw [hPnew, deltasFrom_append_last]
    intro d hd2
    rcases List.mem_append.mp hd2 with hold | hnew
    · exact hdlt d hold
    · have hd3 : d = (stackFlatT e.sizeMaxBytes (g :: rest)).length -
          (stackPosT e.sizeMaxBytes (g :: rest)).getLast?.getD 0 := by
        simpa using hnew
      rw [hd3, ← hlast, ← hbuf]
      exact hdelta
  · dsimp only
    intro S hS2
    apply hph
    simpa [allPhS, phS] using hS2
  · dsimp only
    intro hovf S hS2
    apply hov hovf
    simpa [allPhS, phS] using hS2

theorem stackPosT_endSize (W : Nat) (hW : W ≤ 8) (t p : List Item)
    (rest : List (List Item)) (hp : ∀ T ∈ phS p, T < 2 ^ 62) (S : Nat) :
    stackPosT W ((p ++ Item.ph S :: t) :: rest) = stackPosT W (t :: p :: rest) := by
  have happ : ∀ b : Nat, phPosI W b (p ++ Item.ph S :: t) =
      phPosI W b p ++ ((b + (flatI W p).length) ::
        phPosI W (b + (flatI W p).length + W) t) := by
    intro b
    rw [phPosI_append W hW p (Item.ph S :: t) b hp]
    simp [phPosI]
  cases rest with
  | nil =>
    simp only [stackPosT, happ 0, Nat.zero_add]
    simp [stackPosT, stackFlatT]
  | cons r rs =>
    simp only [stackPosT, happ]
    simp [stackFlatT, List.append_assoc, List.length_append]
    refine ⟨by omega, ?_⟩
    congr 1
    omega

theorem encInv_endSize (e : Encoder) (t p : List Item) (rest : List (List Item))
    (hinv : EncInv e (t :: p :: rest))
    (hS62 : clenI e.sizeMaxBytes t < 2 ^ 62) :
    ∃ e', e.endSize = .ok e' ∧
      EncInv e' ((p ++ Item.ph (clenI e.sizeMaxBytes t) :: t) :: rest) := by
  obtain ⟨hc, hWmem, hne, hbuf, hoff, hsz, hso, hlast, hdlt, hph, hov⟩ := hinv
  have hW8 : e.sizeMaxBytes ≤ 8 := by rcases hWmem with h | h | h | h <;> omega
  have hphp : ∀ T ∈ phS p, T < 2 ^ 62 := by
    intro T hT
    exact hph T (by simp [allPhS, hT])
  have hpht : ∀ T ∈ phS t, T < 2 ^ 62 := by
    intro T hT
    exact hph T (by simp [allPhS, hT])
  -- extract two sizers
  cases hszr : e.sizers with
  | nil =>
    exfalso
    rw [hszr] at hoff
    exact qposT_cons_ne_nil e.sizeMaxBytes t (p :: rest) (by simpa using hoff.symm)
  | cons s0 srest =>
  cases srest with
  | nil =>
    exfalso
    rw [hszr] at hoff
    simp only [List.map_cons, List.map_nil, qposT] at hoff
    have := congrArg List.length hoff
    simp [qposT_cons_ne_nil] at this
  | cons s1 rs =>
  rw [hszr] at hoff hsz
  simp only [List.map_cons, qposT] at hoff hsz
  have hs0off : s0.offset = (stackFlatT e.sizeMaxBytes (p :: rest)).length := by
    injection hoff
  have hoffrest : s1.offset :: rs.map Sizer.offset = qposT e.sizeMaxBytes (p :: rest) := by
    injection hoff
  have hs0sz : s0.size = clenI e.sizeMaxBytes t := by
    injection hsz
  have hszrest : s1.size :: rs.map Sizer.size =
      clenI e.sizeMaxBytes p :: rest.map (clenI e.sizeMaxBytes) := by
    injection hsz
  have hs1sz : s1.size = clenI e.sizeMaxBytes p := by
    injection hszrest
  have hrssz : rs.map Sizer.size = rest.map (clenI e.sizeMaxBytes) := by
    injection hszrest
  -- buffer decomposition
  have hbuf2 : e.buffer = stackFlatT e.sizeMaxBytes (p :: rest) ++
      (List.replicate e.sizeMaxBytes 0 ++ flatI e.sizeMaxBytes t) := by
    rw [hbuf]
    simp [stackFlatT]
  have hbound : s0.offset + e.sizeMaxBytes ≤ e.buffer.length := by
    rw [hbuf2, hs0off]
    simp [List.length_append]
  have htake : e.buffer.take s0.offset = stackFlatT e.sizeMaxBytes (p :: rest) := by
    rw [hbuf2, hs0off]
    exact List.take_left _ _
  have hdrop : e.buffer.drop (s0.offset + e.sizeMaxBytes) =
      flatI e.sizeMaxBytes t := by
    rw [hbuf2, hs0off, ← List.append_assoc]
    have hlen : (stackFlatT e.sizeMaxBytes (p :: rest) ++
        List.replicate e.sizeMaxBytes 0).length =
        (stackFlatT e.sizeMaxBytes (p :: rest)).length + e.sizeMaxBytes := by
      simp
    rw [← hlen]
    exact List.drop_left _ _
  -- the step
  have henc : encodeSize s0.size =
      some (encBytes s0.size, encLen s0.size) := by
    rw [hs0sz]
    exact encodeSize_of_lt hS62
  have hstep : e.endSize = .ok { e with
      buffer := e.buffer.take s0.offset ++ (encBytes s0.size).take e.sizeMaxBytes ++
        e.buffer.drop (s0.offset + e.sizeMaxBytes),
      sizers := ⟨s1.offset, s1.size + (encLen s0.size + s0.size)⟩ :: rs,
      sizeOverflow := e.sizeOverflow ||
        decide (e.sizeMaxBytes < encLen s0.size) } := by
    rw [Encoder.endSize, hszr]
    simp only [henc, hWmem.symm]
    rw [if_pos hWmem, if_pos hbound]
    simp only [hc, if_true]
  rw [hs0sz] at hstep
  refine ⟨_, hstep, ?_⟩
  -- ghost equations for the merged region
  have hflatg : flatI e.sizeMaxBytes (p ++ Item.ph (clenI e.sizeMaxBytes t) :: t) =
      flatI e.sizeMaxBytes p ++
        ((encBytes (clenI e.sizeMaxBytes t)).take e.sizeMaxBytes ++
          flatI e.sizeMaxBytes t) := by
    rw [flatI_append]
    simp [flatI, Item.bytes]
  have hclg : clenI e.sizeMaxBytes (p ++ Item.ph (clenI e.sizeMaxBytes t) :: t) =
      clenI e.sizeMaxBytes p +
        (encLen (clenI e.sizeMaxBytes t) + clenI e.sizeMaxBytes t) := by
    rw [clenI_append]
    simp [clenI, Item.clen]
  have hphg : phS (p ++ Item.ph (clenI e.sizeMaxBytes t) :: t) =
      phS p ++ clenI e.sizeMaxBytes t :: phS t := by
    rw [phS_append]
    simp [phS]
  have hpos : stackPosT e.sizeMaxBytes
      ((p ++ Item.ph (clenI e.sizeMaxBytes t) :: t) :: rest) =
      stackPosT e.sizeMaxBytes (t :: p :: rest) :=
    stackPosT_endSize e.sizeMaxBytes hW8 t p rest hphp _
  refine ⟨hc, hWmem, by simp, ?_, ?_, ?_, ?_, ?_, ?_, ?_, ?_⟩
  · dsimp only
    rw [htake, hdrop]
    rw [stackFlatT_top rest hflatg]
    simp [List.append_assoc]
  · dsimp only
    simp only [List.map_cons]
    rw [qposT_top e.sizeMaxBytes p _ rest]
    exact hoffrest
  · dsimp only
    simp only [List.map_cons]
    rw [hclg, hs1sz, hrssz]
  · dsimp only
    rw [hpos]
    exact hso
  · dsimp only
    rw [hpos]
    exact hlast
  · dsimp only
    rw [hpos]
    exact hdlt
  · dsimp only
    intro T hT
    simp only [allPhS, hphg, List.mem_append, List.mem_cons] at hT
    rcases hT with (hT | rfl | hT) | hT
    · exact hphp T hT
    · exact hS62
    · exact hpht T hT
    · exact hph T (by simp [allPhS, hT])
  · dsimp only
    intro hovf T hT
    have hovf2 : e.sizeOverflow = false ∧
        ¬ (e.sizeMaxBytes < encLen (clenI e.sizeMaxBytes t)) := by
      constructor
      · cases hov2 : e.sizeOverflow
        · rfl
        · rw [hov2] at hovf
          simp at hovf
      · intro hlt
        rw [Bool.or_eq_false_iff] at hovf
        have := hovf.2
        simp [hlt] at this
    simp only [allPhS, hphg, List.mem_append, List.mem_cons] at hT
    rcases hT with (hT | rfl | hT) | hT
    · exact hov hovf2.1 T (by simp [allPhS, hT])
    · omega
    · exact hov hovf2.1 T (by simp [allPhS, hT])
    · exact hov hovf2.1 T (by simp [allPhS, hT])

theorem appendByte_eq_append (e : Encoder) (b : Nat) :
    e.appendByte b = e.append [b] := rfl

theorem encInv_appendSize (e : Encoder) (g : List Item) (rest : List (List Item))
    (v : Nat) (hv : v < 2 ^ 62) (hinv : EncInv e (g :: rest)) :
    ∃ e', e.appendSize v = .ok e' ∧
      EncInv e' ((g ++ [Item.chunk ((encBytes v).take (encLen v))]) :: rest) := by
  obtain ⟨e', happ, hinv'⟩ :=
    encInv_append e g rest ((encBytes v).take (encLen v)) hinv
  refine ⟨e', ?_, hinv'⟩
  rw [Encoder.appendSize, encodeSize_of_lt hv]
  exact happ

theorem encInv_appendSymbol (e : Encoder) (g : List Item) (rest : List (List Item))
    (symbol : List Nat)
    (hv : (symbol.length <<< 1) % 2 ^ 64 ||| 1 < 2 ^ 62)
    (hinv : EncInv e (g :: rest)) :
    ∃ e', e.appendSymbol symbol = .ok e' ∧
      EncInv e'
        ((g ++ [Item.chunk
            ((encBytes ((symbol.length <<< 1) % 2 ^ 64 ||| 1)).take
              (encLen ((symbol.length <<< 1) % 2 ^ 64 ||| 1)))] ++
          [Item.chunk symbol]) :: rest) := by
  obtain ⟨e1, happ1, hinv1⟩ :=
    encInv_append e g rest
      ((encBytes ((symbol.length <<< 1) % 2 ^ 64 ||| 1)).take
        (encLen ((symbol.length <<< 1) % 2 ^ 64 ||| 1))) hinv
  obtain ⟨e2, happ2, hinv2⟩ :=
    encInv_append e1 _ rest symbol hinv1
  refine ⟨e2, ?_, hinv2⟩
  rw [Encoder.appendSymbol, encodeSize_of_lt hv]
  dsimp only
  rw [happ1]
  exact happ2

theorem qposT_length (W : Nat) :
    ∀ gs : List (List Item), (qposT W gs).length = gs.length
  | [] => by simp [qposT]
  | [g] => by simp [qposT]
  | g :: h :: rest => by
    simp only [qposT, List.length_cons, qposT_length W (h :: rest)]

theorem encInv_sizers_length {e : Encoder} {gs : List (List Item)}
    (hinv : EncInv e gs) : e.sizers.length = gs.length := by
  have hoff := hinv.2.2.2.2.1
  have hl := congrArg List.length hoff
  simpa [qposT_length] using hl

theorem encInv_execOp {e e' : Encoder} {gs : List (List Item)} {op : Op}
    (hinv : EncInv e gs) (h : execOp e op = .ok e') :
    ∃ gs', EncInv e' gs' := by
  obtain ⟨g, rest, rfl⟩ : ∃ g rest, gs = g :: rest := by
    cases gs with
    | nil => exact absurd rfl hinv.2.2.1
    | cons g rest => exact ⟨g, rest, rfl⟩
  have hc := hinv.1
  cases op with
  | append bs =>
    simp only [execOp] at h
    obtain ⟨e2, heq, hinv2⟩ := encInv_append e g rest bs hinv
    rw [heq] at h
    injection h with h
    exact ⟨_, h ▸ hinv2⟩
  | appendByte b =>
    simp only [execOp, appendByte_eq_append] at h
    obtain ⟨e2, heq, hinv2⟩ := encInv_append e g rest [b] hinv
    rw [heq] at h
    injection h with h
    exact ⟨_, h ▸ hinv2⟩
  | appendSize v =>
    simp only [execOp] at h
    by_cases hv : v < 2 ^ 62
    · obtain ⟨e2, heq, hinv2⟩ := encInv_appendSize e g rest v hv hinv
      rw [heq] at h
      injection h with h
      exact ⟨_, h ▸ hinv2⟩
    · rw [Encoder.appendSize, encodeSize_none (by omega)] at h
      cases h
  | appendSymbol sym =>
    simp only [execOp] at h
    by_cases hv : (sym.length <<< 1) % 2 ^ 64 ||| 1 < 2 ^ 62
    · obtain ⟨e2, heq, hinv2⟩ := encInv_appendSymbol e g rest sym hv hinv
      rw [heq] at h
      injection h with h
      exact ⟨_, h ▸ hinv2⟩
    · rw [Encoder.appendSymbol, encodeSize_none (by omega)] at h
      cases h
  | beginSize =>
    simp only [execOp] at h
    by_cases hdelta : e.buffer.length - e.lastSizeOffset < 2 ^ 62
    · obtain ⟨e2, heq, hinv2⟩ := encInv_beginSize e g rest hinv hdelta
      rw [heq] at h
      injection h with h
      exact ⟨_, h ▸ hinv2⟩
    · rw [Encoder.beginSize] at h
      simp only [hc, if_true,
        encodeSize_none
          (show 2 ^ 62 ≤ e.buffer.length - e.lastSizeOffset by omega)] at h
      cases h
  | endSize =>
    simp only [execOp] at h
    have hsz := hinv.2.2.2.2.2.1
    cases rest with
    | nil =>
      exfalso
      cases hszr : e.sizers with
      | nil =>
        rw [hszr] at hsz
        simp at hsz
      | cons s0 srest =>
        cases srest with
        | nil =>
          rw [Encoder.endSize, hszr] at h
          cases h
        | cons s1 srest2 =>
          rw [hszr] at hsz
          simp at hsz
    | cons p rest2 =>
      by_cases hbig : clenI e.sizeMaxBytes g < 2 ^ 62
      · obtain ⟨e2, heq, hinv2⟩ := encInv_endSize e g p rest2 hinv hbig
        rw [heq] at h
        injection h with h
        exact ⟨_, h ▸ hinv2⟩
      · exfalso
        cases hszr : e.sizers with
        | nil =>
          rw [hszr] at hsz
          simp at hsz
        | cons s0 srest =>
          cases srest with
          | nil =>
            rw [hszr] at hsz
            simp at hsz
          | cons s1 rs =>
            rw [hszr] at hsz
            simp only [List.map_cons] at hsz
            have hs0 : s0.size = clenI e.sizeMaxBytes g := by
              injection hsz
            rw [Encoder.endSize, hszr] at h
            dsimp only at h
            rw [hs0, encodeSize_none (by omega)] at h
            dsimp only at h
            cases h

theorem encInv_execOps :
    ∀ (ops : List Op) {gs : List (List Item)} (e e' : Encoder),
      EncInv e gs → execOps e ops = .ok e' →
      ∃ gs', EncInv e' gs' := by
  intro ops
  induction ops with
  | nil =>
    intro gs e e' hinv h
    simp only [execOps] at h
    injection h with h
    exact ⟨gs, h ▸ hinv⟩
  | cons op rest ih =>
    intro gs e e' hinv h
    simp only [execOps] at h
    cases h1 : execOp e op with
    | ok e1 =>
      rw [h1] at h
      obtain ⟨gs1, hinv1⟩ := encInv_execOp hinv h1
      exact ih e1 e' hinv1 h
    | error err =>
      rw [h1] at h
      cases h
    | panic =>
      rw [h1] at h
      cases h

theorem encInv_init (W : Nat)
    (hW : W = 1 ∨ W = 2 ∨ W = 4 ∨ W = 8) :
    EncInv (mkEncoder W true) [[]] := by
  refine ⟨rfl, hW, by simp, ?_, ?_, ?_, ?_, ?_, ?_, ?_, ?_⟩ <;>
    simp [mkEncoder, stackFlatT, qposT, stackPosT, phPosI, flatI, clenI,
      allPhS, phS, deltasFrom, varcat]

theorem segsOf_fst_mem :
    ∀ (items : List Item) (q : Nat × List Nat),
      q ∈ segsOf items → q.1 ∈ phS items := by
  intro items
  induction items with
  | nil =>
    intro q hq
    simp [segsOf] at hq
  | cons it rest ih =>
    intro q hq
    cases it with
    | chunk bs =>
      simp only [segsOf] at hq
      simp only [phS]
      exact ih q hq
    | ph S =>
      simp only [segsOf, List.mem_cons] at hq
      simp only [phS, List.mem_cons]
      rcases hq with rfl | hq
      · exact Or.inl rfl
      · exact Or.inr (ih q hq)

theorem segFlat_length_ge (W : Nat) (hW1 : 1 ≤ W) (hW8 : W ≤ 8) :
    ∀ segs : List (Nat × List Nat), (∀ q ∈ segs, q.1 < 2 ^ 62) →
      segs.length ≤ (segFlat W segs).length := by
  intro segs
  induction segs with
  | nil => simp [segFlat]
  | cons sg rest ih =>
    obtain ⟨S, g⟩ := sg
    intro hb
    have hS : S < 2 ^ 62 := by
      have := hb (S, g) (by simp)
      simpa using this
    simp only [segFlat, List.length_cons, List.length_append, blockLen hW8 hS]
    have := ih (fun q hq => hb q (by simp [hq]))
    omega

theorem clenI_le_flat (W : Nat) (hW8 : W ≤ 8) :
    ∀ items : List Item,
      (∀ S ∈ phS items, S < 2 ^ 62 ∧ encLen S ≤ W) →
      clenI W items ≤ (flatI W items).length := by
  intro items
  induction items with
  | nil => simp [clenI, flatI]
  | cons it rest ih =>
    intro hb
    cases it with
    | chunk bs =>
      simp only [clenI, flatI, Item.clen, Item.bytes, List.length_append]
      have := ih (fun S hS => hb S (by simp [phS, hS]))
      omega
    | ph S =>
      obtain ⟨hS62, hSW⟩ := hb S (by simp [phS])
      simp only [clenI, flatI, Item.clen, Item.bytes, List.length_append,
        blockLen hW8 hS62]
      have := ih (fun T hT => hb T (by simp [phS, hT]))
      omega

theorem compress_spec (e : Encoder) (g : List Item) (dest : List Nat)
    (hinv : EncInv e [g]) (hnov : e.sizeOverflow = false) :
    e.compress dest = .ok (dest ++ (leadBytes g ++ segOut (segsOf g))) ∧
    (leadBytes g ++ segOut (segsOf g)).length = clenI e.sizeMaxBytes g ∧
    e.size = .ok (clenI e.sizeMaxBytes g) := by
  obtain ⟨hc, hWmem, hne, hbuf, hoff, hsz, hso, hlast, hdlt, hph, hov⟩ := hinv
  have hW1 : 1 ≤ e.sizeMaxBytes := by rcases hWmem with h | h | h | h <;> omega
  have hW8 : e.sizeMaxBytes ≤ 8 := by rcases hWmem with h | h | h | h <;> omega
  have hphg : ∀ S ∈ phS g, S < 2 ^ 62 := fun S hS => hph S (by simp [allPhS, hS])
  have hencg : ∀ S ∈ phS g, encLen S ≤ e.sizeMaxBytes :=
    fun S hS => hov hnov S (by simp [allPhS, hS])
  have hsegb : ∀ q ∈ segsOf g, q.1 < 2 ^ 62 ∧ encLen q.1 ≤ e.sizeMaxBytes :=
    fun q hq => ⟨hphg _ (segsOf_fst_mem g q hq), hencg _ (segsOf_fst_mem g q hq)⟩
  have hlen : (leadBytes g ++ segOut (segsOf g)).length =
      clenI e.sizeMaxBytes g := by
    rw [List.length_append, clenI_lead_seg]
  -- the sizer stack is the lone root sizer
  cases hszr : e.sizers with
  | nil =>
    rw [hszr] at hsz
    simp at hsz
  | cons s0 srest =>
    cases srest with
    | cons s1 rs =>
      rw [hszr] at hsz
      simp at hsz
    | nil =>
      rw [hszr] at hsz
      simp only [List.map_cons, List.map_nil] at hsz
      have hs0 : s0.size = clenI e.sizeMaxBytes g := by
        injection hsz
      have hsize : e.size = .ok (clenI e.sizeMaxBytes g) := by
        rw [Encoder.size, hszr]
        dsimp only
        rw [hs0]
      refine ⟨?_, hlen, hsize⟩
      -- buffer and offsets in the loop's canonical form
      have hbufeq : e.buffer =
          leadBytes g ++ segFlat e.sizeMaxBytes (segsOf g) := by
        rw [hbuf]
        simp only [stackFlatT]
        exact flatI_lead_seg _ g
      have hdelteq : deltasFrom 0 (stackPosT e.sizeMaxBytes [g]) =
          segDeltas e.sizeMaxBytes (leadBytes g).length (segsOf g) := by
        simp only [stackPosT]
        rw [deltas_phPosI e.sizeMaxBytes g 0 0 (le_refl 0)]
        simp
      have hsoeq : e.sizeOffsets =
          varcat (segDeltas e.sizeMaxBytes (leadBytes g).length (segsOf g)) := by
        rw [hso, hdelteq]
      rw [hdelteq] at hdlt
      have hfuel : (segsOf g).length + 1 ≤
          (leadBytes g ++ segFlat e.sizeMaxBytes (segsOf g)).length + 1 := by
        have h1 := segFlat_length_ge e.sizeMaxBytes hW1 hW8 (segsOf g)
          (fun q hq => (hsegb q hq).1)
        simp only [List.length_append]
        omega
      have hloop := compressLoop_spec e.sizeMaxBytes hW1 hW8 (segsOf g)
        ((leadBytes g ++ segFlat e.sizeMaxBytes (segsOf g)).length + 1)
        (leadBytes g) [] [] dest true hsegb (by simpa using hdlt) hfuel
      simp at hloop
      rw [Encoder.compress, hsize]
      dsimp only
      simp only [Reader.new]
      rw [hbufeq, hsoeq]
      simp only [List.length_append]
      rw [hloop]
      have hassert : (dest ++ (leadBytes g ++ segOut (segsOf g))).length -
          dest.length = clenI e.sizeMaxBytes g := by
        rw [List.length_append, hlen]
        omega
      dsimp only
      rw [hassert]
      simp

/-- C7: with `compress_sizes = true`, in any encoder state reached from
`Encoder::new` by public operations in which exactly one scope remains open
and no size overflow is latched, `build()` succeeds and the byte vector it
returns has length exactly the root scope's running size as returned by
`size()`; equivalently, the compaction pass (`build_append`) appends exactly
that many bytes to any destination. -/
theorem c7_build_length_eq_size (W : Nat) (ops : List Op) (e0 e : Encoder)
    (hnew : Encoder.new W true = .ok e0)
    (hrun : execOps e0 ops = .ok e)
    (hone : e.sizers.length = 1)
    (hnov : e.sizeOverflow = false) :
    ∃ out size, e.build = .ok out ∧ e.size = .ok size ∧ out.length = size ∧
      ∀ dest, e.buildAppend dest = .ok (dest ++ out) := by
  have hWmem : W = 1 ∨ W = 2 ∨ W = 4 ∨ W = 8 := by
    by_contra hW
    rw [Encoder.new, if_neg hW] at hnew
    cases hnew
  rw [Encoder.new, if_pos hWmem] at hnew
  injection hnew with hnew
  have hinv0 := encInv_init W hWmem
  rw [hnew] at hinv0
  obtain ⟨gs, hinv⟩ := encInv_execOps ops e0 e hinv0 hrun
  have hlen1 : gs.length = 1 := by
    rw [← encInv_sizers_length hinv]
    exact hone
  obtain ⟨g, rfl⟩ : ∃ g, gs = [g] := by
    cases gs with
    | nil => simp at hlen1
    | cons g rest =>
      cases rest with
      | nil => exact ⟨g, rfl⟩
      | cons a b => simp at hlen1
  have hc := hinv.1
  obtain ⟨hcomp, hlen, hsize⟩ := compress_spec e g [] hinv hnov
  refine ⟨leadBytes g ++ segOut (segsOf g), clenI e.sizeMaxBytes g, ?_, hsize,
    hlen, ?_⟩
  · rw [Encoder.build, if_pos hone, hnov]
    simp only [Bool.false_eq_true, if_false, hc, if_true]
    simpa using hcomp
  · intro dest
    rw [Encoder.buildAppend, if_pos hone, hnov]
    simp only [Bool.false_eq_true, if_false, hc, if_true]
    exact (compress_spec e g dest hinv hnov).1

/-- Witness for C7: the three-operation run `begin_size; append_byte 7;
end_size` at width 1 ends in a concrete state whose `build()` output length
equals `size()`. -/
theorem c7_build_length_eq_size_witness :
    Encoder.new 1 true = .ok (mkEncoder 1 true) ∧
    execOps (mkEncoder 1 true) [Op.beginSize, Op.appendByte 7, Op.endSize] =
      .ok (⟨[4, 7], [⟨0, 2⟩], [0], 0, 1, true, false⟩ : Encoder) ∧
    (⟨[4, 7], [⟨0, 2⟩], [0], 0, 1, true, false⟩ : Encoder).sizers.length = 1 ∧
    (⟨[4, 7], [⟨0, 2⟩], [0], 0, 1, true, false⟩ : Encoder).sizeOverflow
      = false ∧
    ∃ out size,
      (⟨[4, 7], [⟨0, 2⟩], [0], 0, 1, true, false⟩ : Encoder).build
        = .ok out ∧
      (⟨[4, 7], [⟨0, 2⟩], [0], 0, 1, true, false⟩ : Encoder).size
        = .ok size ∧
      out.length = size ∧
      ∀ dest,
        (⟨[4, 7], [⟨0, 2⟩], [0], 0, 1, true, false⟩ : Encoder).buildAppend dest
          = .ok (dest ++ out) :=
  ⟨by decide, by decide, rfl, rfl,
   c7_build_length_eq_size 1 [Op.beginSize, Op.appendByte 7, Op.endSize]
     (mkEncoder 1 true) (⟨[4, 7], [⟨0, 2⟩], [0], 0, 1, true, false⟩ : Encoder)
     (by decide) (by decide) rfl rfl⟩

theorem commitSize_overflow {e e1 : Encoder} {n : Nat}
    (h : e.commitSize n = .ok e1) : e1.sizeOverflow = e.sizeOverflow := by
  rw [Encoder.commitSize] at h
  cases hs : e.sizers with
  | nil =>
    rw [hs] at h
    cases h
  | cons s rest =>
    rw [hs] at h
    injection h with h
    rw [← h]

theorem append_overflow {e e1 : Encoder} {bs : List Nat}
    (h : e.append bs = .ok e1) : e1.sizeOverflow = e.sizeOverflow := by
  rw [Encoder.append] at h
  exact commitSize_overflow (e := { e with buffer := e.buffer ++ bs }) h

theorem execOp_overflow {e e1 : Encoder} {op : Op}
    (h : execOp e op = .ok e1) (hov : e.sizeOverflow = true) :
    e1.sizeOverflow = true := by
  cases op with
  | append bs =>
    simp only [execOp] at h
    rw [append_overflow h]
    exact hov
  | appendByte b =>
    simp only [execOp, appendByte_eq_append] at h
    rw [append_overflow h]
    exact hov
  | appendSize v =>
    simp only [execOp, Encoder.appendSize] at h
    cases he : encodeSize v with
    | none =>
      rw [he] at h
      cases h
    | some q =>
      rw [he] at h
      obtain ⟨bytes, length⟩ := q
      dsimp only at h
      rw [append_overflow h]
      exact hov
  | appendSymbol sym =>
    simp only [execOp, Encoder.appendSymbol] at h
    cases he : encodeSize ((sym.length <<< 1) % 2 ^ 64 ||| 1) with
    | none =>
      rw [he] at h
      cases h
    | some q =>
      rw [he] at h
      obtain ⟨bytes, length⟩ := q
      dsimp only at h
      cases h1 : e.append (bytes.take length) with
      | ok emid =>
        rw [h1] at h
        rw [append_overflow h, append_overflow h1]
        exact hov
      | error err =>
        rw [h1] at h
        cases h
      | panic =>
        rw [h1] at h
        cases h
  | beginSize =>
    simp only [execOp, Encoder.beginSize] at h
    cases hcc : e.compressSizes with
    | false =>
      rw [hcc] at h
      simp only [Bool.false_eq_true, if_false] at h
      injection h with h
      rw [← h]
      exact hov
    | true =>
      rw [hcc] at h
      simp only [if_true] at h
      cases he : encodeSize (e.buffer.length - e.lastSizeOffset) with
      | none =>
        rw [he] at h
        cases h
      | some q =>
        rw [he] at h
        obtain ⟨bytes, length⟩ := q
        dsimp only at h
        injection h with h
        rw [← h]
        exact hov
  | endSize =>
    simp only [execOp, Encoder.endSize] at h
    cases hs : e.sizers with
    | nil =>
      rw [hs] at h
      cases h
    | cons s0 rest =>
      cases rest with
      | nil =>
        rw [hs] at h
        cases h
      | cons s1 rs =>
        rw [hs] at h
        dsimp only at h
        cases he : encodeSize s0.size with
        | none =>
          rw [he] at h
          cases h
        | some q =>
          rw [he] at h
          obtain ⟨bytes, length⟩ := q
          dsimp only at h
          split_ifs at h
          all_goals first
          | (injection h with h
             rw [← h]
             dsimp only
             rw [hov]
             rfl)
          | cases h

theorem execOps_overflow {ops : List Op} : ∀ {e e1 : Encoder},
    execOps e ops = .ok e1 → e.sizeOverflow = true →
    e1.sizeOverflow = true := by
  induction ops with
  | nil =>
    intro e e1 h hov
    simp only [execOps] at h
    injection h with h
    rw [← h]
    exact hov
  | cons op rest ih =>
    intro e e1 h hov
    simp only [execOps] at h
    cases h1 : execOp e op with
    | ok emid =>
      rw [h1] at h
      exact ih h (execOp_overflow h1 hov)
    | error err =>
      rw [h1] at h
      cases h
    | panic =>
      rw [h1] at h
      cases h

theorem build_sizeOverflow {e : Encoder} (hone : e.sizers.length = 1)
    (hov : e.sizeOverflow = true) : e.build = .error .SizeOverflow := by
  rw [Encoder.build, if_pos hone, hov]
  simp

theorem buildAppend_sizeOverflow {e : Encoder} (dest : List Nat)
    (hone : e.sizers.length = 1) (hov : e.sizeOverflow = true) :
    e.buildAppend dest = .error .SizeOverflow := by
  rw [Encoder.buildAppend, if_pos hone, hov]
  simp

/-- C6 (amended): a latched `size_overflow` survives every further
successful operation, and `build()` / `build_append()` then fail with
`SizeOverflow` provided exactly one scope remains open; with unbalanced
scopes they panic on the scope-count assert instead (see the
counterexample). -/
theorem c6_overflow_latched (e e' : Encoder) (ops : List Op)
    (hov : e.sizeOverflow = true) (hrun : execOps e ops = .ok e') :
    e'.sizeOverflow = true ∧
    (e'.sizers.length = 1 →
      e'.build = .error .SizeOverflow ∧
      ∀ dest, e'.buildAppend dest = .error .SizeOverflow) := by
  have hov' : e'.sizeOverflow = true := execOps_overflow hrun hov
  exact ⟨hov', fun hone =>
    ⟨build_sizeOverflow hone hov',
     fun dest => buildAppend_sizeOverflow dest hone hov'⟩⟩

/-- Counterexample to C6 as stated: after an overflowing `end_size` at
width 1, opening another scope leaves the overflow latched, yet `build()`
panics on the `sizers.len() == 1` assert instead of failing with
`SizeOverflow` — the assert runs before the overflow check. -/
theorem c6_counterexample :
    execOps (mkEncoder 1 true)
      [Op.beginSize, Op.append (List.replicate 64 1), Op.endSize,
       Op.beginSize] =
      .ok (⟨List.replicate 65 1 ++ [0], [⟨65, 0⟩, ⟨0, 66⟩], [0, 5, 1], 65, 1,
        true, true⟩ : Encoder) ∧
    (⟨List.replicate 65 1 ++ [0], [⟨65, 0⟩, ⟨0, 66⟩], [0, 5, 1], 65, 1,
      true, true⟩ : Encoder).sizeOverflow = true ∧
    (⟨List.replicate 65 1 ++ [0], [⟨65, 0⟩, ⟨0, 66⟩], [0, 5, 1], 65, 1,
      true, true⟩ : Encoder).build = .panic ∧
    (⟨List.replicate 65 1 ++ [0], [⟨65, 0⟩, ⟨0, 66⟩], [0, 5, 1], 65, 1,
      true, true⟩ : Encoder).build ≠ .error .SizeOverflow := by
  refine ⟨by decide, rfl, by decide, by decide⟩

/-- Witness for C6 (amended): a concrete overflowed single-scope state; one
more `append_byte` keeps the overflow and `build()` fails with
`SizeOverflow`. -/
theorem c6_overflow_latched_witness :
    (⟨List.replicate 65 1, [⟨0, 66⟩], [0], 0, 1, true, true⟩ :
      Encoder).sizeOverflow = true ∧
    execOps (⟨List.replicate 65 1, [⟨0, 66⟩], [0], 0, 1, true, true⟩ :
        Encoder) [Op.appendByte 5] =
      .ok (⟨List.replicate 65 1 ++ [5], [⟨0, 67⟩], [0], 0, 1, true, true⟩ :
        Encoder) ∧
    ((⟨List.replicate 65 1 ++ [5], [⟨0, 67⟩], [0], 0, 1, true, true⟩ :
        Encoder).sizeOverflow = true ∧
      ((⟨List.replicate 65 1 ++ [5], [⟨0, 67⟩], [0], 0, 1, true, true⟩ :
          Encoder).sizers.length = 1 →
        (⟨List.replicate 65 1 ++ [5], [⟨0, 67⟩], [0], 0, 1, true, true⟩ :
          Encoder).build = .error .SizeOverflow ∧
        ∀ dest,
          (⟨List.replicate 65 1 ++ [5], [⟨0, 67⟩], [0], 0, 1, true, true⟩ :
            Encoder).buildAppend dest = .error .SizeOverflow)) :=
  ⟨rfl, by decide,
   c6_overflow_latched
     (⟨List.replicate 65 1, [⟨0, 66⟩], [0], 0, 1, true, true⟩ : Encoder)
     (⟨List.replicate 65 1 ++ [5], [⟨0, 67⟩], [0], 0, 1, true, true⟩ :
       Encoder)
     [Op.appendByte 5] rfl (by decide)⟩

theorem commitSize_shape {e e1 : Encoder} {n : Nat}
    (h : e.commitSize n = .ok e1) :
    e1.buffer = e.buffer ∧
    e1.sizers.map Sizer.offset = e.sizers.map Sizer.offset ∧
    e1.sizeMaxBytes = e.sizeMaxBytes ∧ e1.compressSizes = e.compressSizes := by
  rw [Encoder.commitSize] at h
  cases hs : e.sizers with
  | nil =>
    rw [hs] at h
    cases h
  | cons s rest =>
    rw [hs] at h
    injection h with h
    rw [← h]
    simp

theorem append_shape {e e1 : Encoder} {bs : List Nat}
    (h : e.append bs = .ok e1) :
    e1.buffer = e.buffer ++ bs ∧
    e1.sizers.map Sizer.offset = e.sizers.map Sizer.offset ∧
    e1.sizeMaxBytes = e.sizeMaxBytes ∧ e1.compressSizes = e.compressSizes := by
  rw [Encoder.append] at h
  exact commitSize_shape (e := { e with buffer := e.buffer ++ bs }) h

theorem mrel_append {ec ec' eu eu' : Encoder} {bs : List Nat}
    (hm : MRel ec eu)
    (hc : ec.append bs = .ok ec') (hu : eu.append bs = .ok eu') :
    MRel ec' eu' := by
  obtain ⟨hlen, hoff, hW, hmode⟩ := hm
  obtain ⟨hb1, ho1, hw1, hm1⟩ := append_shape hc
  obtain ⟨hb2, ho2, hw2, hm2⟩ := append_shape hu
  refine ⟨?_, ?_, ?_, ?_⟩
  · rw [hb1, hb2]
    simp [hlen]
  · rw [ho1, ho2, hoff]
  · rw [hw1, hw2, hW]
  · rw [hm2, hmode]

theorem mrel_execOp {ec ec' eu eu' : Encoder} {op : Op}
    (hm : MRel ec eu)
    (hc : execOp ec op = .ok ec') (hu : execOp eu op = .ok eu') :
    MRel ec' eu' := by
  cases op with
  | append bs =>
    simp only [execOp] at hc hu
    exact mrel_append hm hc hu
  | appendByte b =>
    simp only [execOp, appendByte_eq_append] at hc hu
    exact mrel_append hm hc hu
  | appendSize v =>
    simp only [execOp, Encoder.appendSize] at hc hu
    cases he : encodeSize v with
    | none =>
      rw [he] at hc
      cases hc
    | some q =>
      rw [he] at hc hu
      obtain ⟨bytes, length⟩ := q
      dsimp only at hc hu
      exact mrel_append hm hc hu
  | appendSymbol sym =>
    simp only [execOp, Encoder.appendSymbol] at hc hu
    cases he : encodeSize ((sym.length <<< 1) % 2 ^ 64 ||| 1) with
    | none =>
      rw [he] at hc
      cases hc
    | some q =>
      rw [he] at hc hu
      obtain ⟨bytes, length⟩ := q
      dsimp only at hc hu
      cases h1 : ec.append (bytes.take length) with
      | error err =>
        rw [h1] at hc
        cases hc
      | panic =>
        rw [h1] at hc
        cases hc
      | ok ecm =>
        rw [h1] at hc
        cases h2 : eu.append (bytes.take length) with
        | error err =>
          rw [h2] at hu
          cases hu
        | panic =>
          rw [h2] at hu
          cases hu
        | ok eum =>
          rw [h2] at hu
          exact mrel_append (mrel_append hm h1 h2) hc hu
  | beginSize =>
    obtain ⟨hlen, hoff, hW, hmode⟩ := hm
    simp only [execOp, Encoder.beginSize] at hc hu
    rw [hmode] at hu
    simp only [Bool.false_eq_true, if_false] at hu
    injection hu with hu
    have hshape : ec'.buffer = ec.buffer ++ List.replicate ec.sizeMaxBytes 0 ∧
        ec'.sizers = (⟨ec.buffer.length, 0⟩ : Sizer) :: ec.sizers ∧
        ec'.sizeMaxBytes = ec.sizeMaxBytes := by
      cases hcc : ec.compressSizes with
      | false =>
        rw [hcc] at hc
        simp only [Bool.false_eq_true, if_false] at hc
        injection hc with hc
        rw [← hc]
        exact ⟨rfl, rfl, rfl⟩
      | true =>
        rw [hcc] at hc
        simp only [if_true] at hc
        cases he : encodeSize (ec.buffer.length - ec.lastSizeOffset) with
        | none =>
          rw [he] at hc
          cases hc
        | some q =>
          rw [he] at hc
          obtain ⟨bytes, length⟩ := q
          dsimp only at hc
          injection hc with hc
          rw [← hc]
          exact ⟨rfl, rfl, rfl⟩
    obtain ⟨hb1, hs1, hw1⟩ := hshape
    refine ⟨?_, ?_, ?_, ?_⟩
    · rw [hb1, ← hu]
      simp [hlen, hW]
    · rw [hs1, ← hu]
      simp only [List.map_cons]
      rw [hoff, hlen]
    · rw [hw1, ← hu]
      exact hW
    · rw [← hu]
  | endSize =>
    obtain ⟨hlen, hoff, hW, hmode⟩ := hm
    simp only [execOp, Encoder.endSize] at hc hu
    cases hsc : ec.sizers with
    | nil =>
      rw [hsc] at hc
      cases hc
    | cons c0 crest =>
      cases crest with
      | nil =>
        rw [hsc] at hc
        cases hc
      | cons c1 crs =>
        cases hsu : eu.sizers with
        | nil =>
          rw [hsu] at hu
          cases hu
        | cons u0 urest =>
          cases urest with
          | nil =>
            rw [hsu] at hu
            cases hu
          | cons u1 urs =>
            rw [hsc] at hc hoff
            rw [hsu] at hu hoff
            dsimp only at hc hu
            simp only [List.map_cons] at hoff
            have h00 : u0.offset = c0.offset := by
              injection hoff
            have hoff1 : u1.offset :: urs.map Sizer.offset =
                c1.offset :: crs.map Sizer.offset := by
              injection hoff
            cases hec : encodeSize c0.size with
            | none =>
              rw [hec] at hc
              cases hc
            | some qc =>
              rw [hec] at hc
              obtain ⟨cbytes, clength⟩ := qc
              dsimp only at hc
              cases heu : encodeSize u0.size with
              | none =>
                rw [heu] at hu
                cases hu
              | some qu =>
                rw [heu] at hu
                obtain ⟨ubytes, ulength⟩ := qu
                dsimp only at hu
                have hcb8 : cbytes.length = 8 := (encodeSize_len_le8 hec).2.1
                have hub8 : ubytes.length = 8 := (encodeSize_len_le8 heu).2.1
                by_cases hg1 : ec.sizeMaxBytes = 1 ∨ ec.sizeMaxBytes = 2 ∨
                    ec.sizeMaxBytes = 4 ∨ ec.sizeMaxBytes = 8
                case neg =>
                  rw [if_neg hg1] at hc
                  cases hc
                rw [if_pos hg1] at hc
                by_cases hg2 : c0.offset + ec.sizeMaxBytes ≤ ec.buffer.length
                case neg =>
                  rw [if_neg hg2] at hc
                  cases hc
                rw [if_pos hg2] at hc
                by_cases hg3 : eu.sizeMaxBytes = 1 ∨ eu.sizeMaxBytes = 2 ∨
                    eu.sizeMaxBytes = 4 ∨ eu.sizeMaxBytes = 8
                case neg =>
                  rw [if_neg hg3] at hu
                  cases hu
                rw [if_pos hg3] at hu
                by_cases hg4 : u0.offset + eu.sizeMaxBytes ≤ eu.buffer.length
                case neg =>
                  rw [if_neg hg4] at hu
                  cases hu
                rw [if_pos hg4] at hu
                injection hc with hc
                injection hu with hu
                refine ⟨?_, ?_, ?_, ?_⟩
                · rw [← hc, ← hu]
                  dsimp only
                  simp only [List.length_append, List.length_take,
                    List.length_drop, hcb8, hub8, h00, hW, hlen]
                · rw [← hc, ← hu]
                  dsimp only
                  simp only [List.map_cons]
                  rw [hoff1]
                · rw [← hc, ← hu]
                  exact hW
                · rw [← hu]
                  exact hmode

theorem mrel_execOps {ops : List Op} : ∀ {ec ec' eu eu' : Encoder},
    MRel ec eu → execOps ec ops = .ok ec' → execOps eu ops = .ok eu' →
    MRel ec' eu' := by
  induction ops with
  | nil =>
    intro ec ec' eu eu' hm hc hu
    simp only [execOps] at hc hu
    injection hc with hc
    injection hu with hu
    rw [← hc, ← hu]
    exact hm
  | cons op rest ih =>
    intro ec ec' eu eu' hm hc hu
    simp only [execOps] at hc hu
    cases h1 : execOp ec op with
    | error err =>
      rw [h1] at hc
      cases hc
    | panic =>
      rw [h1] at hc
      cases hc
    | ok ecm =>
      rw [h1] at hc
      cases h2 : execOp eu op with
      | error err =>
        rw [h2] at hu
        cases hu
      | panic =>
        rw [h2] at hu
        cases hu
      | ok eum =>
        rw [h2] at hu
        exact ih (mrel_execOp hm h1 h2) hc hu

theorem build_ok_elim {e : Encoder} {out : List Nat} (h : e.build = .ok out) :
    e.sizers.length = 1 ∧ e.sizeOverflow = false := by
  rw [Encoder.build] at h
  by_cases h1 : e.sizers.length = 1
  · rw [if_pos h1] at h
    cases hov : e.sizeOverflow
    · exact ⟨h1, rfl⟩
    · rw [hov] at h
      simp at h
  · rw [if_neg h1] at h
    cases h

/-- C3 (amended, length half): for any width and any operation sequence for
which both the `compress_sizes = true` and the `compress_sizes = false` run
succeed through `build()`, the compressed output is no longer than the
uncompressed output.  (The "decode to the same value" half of the claim is
refuted by `c3_counterexample`: the uncompressed buffer keeps the zero
padding of patched placeholders, so its payload sizes cover different
bytes.) -/
theorem c3_compressed_no_longer (W : Nat) (ops : List Op)
    (ec0 eu0 ec eu : Encoder) (outc outu : List Nat)
    (hc0 : Encoder.new W true = .ok ec0)
    (hu0 : Encoder.new W false = .ok eu0)
    (hcr : execOps ec0 ops = .ok ec)
    (hur : execOps eu0 ops = .ok eu)
    (hcb : ec.build = .ok outc)
    (hub : eu.build = .ok outu) :
    outc.length ≤ outu.length := by
  have hWmem : W = 1 ∨ W = 2 ∨ W = 4 ∨ W = 8 := by
    by_contra hW
    rw [Encoder.new, if_neg hW] at hc0
    cases hc0
  rw [Encoder.new, if_pos hWmem] at hc0 hu0
  injection hc0 with hc0
  injection hu0 with hu0
  have hinv0 := encInv_init W hWmem
  rw [hc0] at hinv0
  obtain ⟨gs, hinv⟩ := encInv_execOps ops ec0 ec hinv0 hcr
  obtain ⟨hone, hnov⟩ := build_ok_elim hcb
  have hlen1 : gs.length = 1 := by
    rw [← encInv_sizers_length hinv]
    exact hone
  obtain ⟨g, rfl⟩ : ∃ g, gs = [g] := by
    cases gs with
    | nil => simp at hlen1
    | cons g rest =>
      cases rest with
      | nil => exact ⟨g, rfl⟩
      | cons a b => simp at hlen1
  have hcmode := hinv.1
  obtain ⟨hcomp, hclen, hcsize⟩ := compress_spec ec g [] hinv hnov
  have hbuild : ec.build = .ok (leadBytes g ++ segOut (segsOf g)) := by
    rw [Encoder.build, if_pos hone, hnov]
    simp only [Bool.false_eq_true, if_false, hcmode, if_true]
    simpa using hcomp
  have houtc : outc = leadBytes g ++ segOut (segsOf g) := by
    rw [hbuild] at hcb
    injection hcb with h
    exact h.symm
  have hW8 : ec.sizeMaxBytes ≤ 8 := by
    rcases hinv.2.1 with h | h | h | h <;> omega
  have hb : ec.buffer = flatI ec.sizeMaxBytes g := by
    have hbuf := hinv.2.2.2.1
    simpa [stackFlatT] using hbuf
  have hbound : clenI ec.sizeMaxBytes g ≤ ec.buffer.length := by
    rw [hb]
    apply clenI_le_flat _ hW8
    intro S hS
    exact ⟨hinv.2.2.2.2.2.2.2.2.2.1 S (by simp [allPhS, hS]),
      hinv.2.2.2.2.2.2.2.2.2.2 hnov S (by simp [allPhS, hS])⟩
  obtain ⟨huone, hunov⟩ := build_ok_elim hub
  have hmrel0 : MRel ec0 eu0 := by
    rw [← hc0, ← hu0]
    simp [MRel, mkEncoder]
  have hmrel := mrel_execOps hmrel0 hcr hur
  obtain ⟨hblen, -, -, humode⟩ := hmrel
  have huout : outu = eu.buffer := by
    rw [Encoder.build, if_pos huone, hunov] at hub
    simp only [Bool.false_eq_true, if_false, humode] at hub
    injection hub with h
    exact h.symm
  rw [houtc, huout, hclen, hblen]
  exact hbound

/-- Counterexample to C3 as stated: at width 2, the same five operations
produce builds whose bytes decode to different `List` payloads — the
compressed form drops the placeholder padding while the uncompressed form
keeps it, shifting which bytes the size covers; only the compressed form
validates. -/
theorem c3_counterexample :
    execOps (mkEncoder 2 true)
      [Op.appendByte 21, Op.beginSize, Op.appendSize 1, Op.appendByte 1,
       Op.endSize] =
      .ok (⟨[21, 8, 0, 4, 1], [⟨0, 4⟩], [4], 1, 2, true, false⟩ : Encoder) ∧
    execOps (mkEncoder 2 false)
      [Op.appendByte 21, Op.beginSize, Op.appendSize 1, Op.appendByte 1,
       Op.endSize] =
      .ok (⟨[21, 8, 0, 4, 1], [⟨0, 5⟩], [], 0, 2, false, false⟩ : Encoder) ∧
    (⟨[21, 8, 0, 4, 1], [⟨0, 4⟩], [4], 1, 2, true, false⟩ : Encoder).build =
      .ok [21, 8, 4, 1] ∧
    (⟨[21, 8, 0, 4, 1], [⟨0, 5⟩], [], 0, 2, false, false⟩ : Encoder).build =
      .ok [21, 8, 0, 4, 1] ∧
    decodeValue (Reader.new [21, 8, 4, 1]) =
      .ok ⟨WireType.List, false, false, [], [], Payload.List [4, 1]⟩
        ⟨[21, 8, 4, 1], 4⟩ ∧
    decodeValue (Reader.new [21, 8, 0, 4, 1]) =
      .ok ⟨WireType.List, false, false, [], [], Payload.List [0, 4]⟩
        ⟨[21, 8, 0, 4, 1], 4⟩ ∧
    Payload.List [4, 1] ≠ Payload.List [0, 4] ∧
    validate [21, 8, 4, 1] = .ok () ∧
    validate [21, 8, 0, 4, 1] = .error .ListTrailingData := by
  refine ⟨by decide, by decide, by decide, by decide, by decide, by decide,
    by decide, by decide, by decide⟩

/-- Witness for C3 (amended): the width-2 run of the counterexample; both
builds succeed and the compressed output (4 bytes) is no longer than the
uncompressed one (5 bytes). -/
theorem c3_compressed_no_longer_witness :
    Encoder.new 2 true = .ok (mkEncoder 2 true) ∧
    Encoder.new 2 false = .ok (mkEncoder 2 false) ∧
    execOps (mkEncoder 2 true)
      [Op.appendByte 21, Op.beginSize, Op.appendSize 1, Op.appendByte 1,
       Op.endSize] =
      .ok (⟨[21, 8, 0, 4, 1], [⟨0, 4⟩], [4], 1, 2, true, false⟩ : Encoder) ∧
    execOps (mkEncoder 2 false)
      [Op.appendByte 21, Op.beginSize, Op.appendSize 1, Op.appendByte 1,
       Op.endSize] =
      .ok (⟨[21, 8, 0, 4, 1], [⟨0, 5⟩], [], 0, 2, false, false⟩ : Encoder) ∧
    (⟨[21, 8, 0, 4, 1], [⟨0, 4⟩], [4], 1, 2, true, false⟩ : Encoder).build =
      .ok [21, 8, 4, 1] ∧
    (⟨[21, 8, 0, 4, 1], [⟨0, 5⟩], [], 0, 2, false, false⟩ : Encoder).build =
      .ok [21, 8, 0, 4, 1] ∧
    ([21, 8, 4, 1] : List Nat).length ≤
      ([21, 8, 0, 4, 1] : List Nat).length :=
  ⟨by decide, by decide, by decide, by decide, by decide, by decide,
   c3_compressed_no_longer 2
     [Op.appendByte 21, Op.beginSize, Op.appendSize 1, Op.appendByte 1,
      Op.endSize]
     (mkEncoder 2 true) (mkEncoder 2 false)
     (⟨[21, 8, 0, 4, 1], [⟨0, 4⟩], [4], 1, 2, true, false⟩ : Encoder)
     (⟨[21, 8, 0, 4, 1], [⟨0, 5⟩], [], 0, 2, false, false⟩ : Encoder)
     [21, 8, 4, 1] [21, 8, 0, 4, 1]
     (by decide) (by decide) (by decide) (by decide) (by decide) (by decide)⟩

end Udoc
